import Mathlib

/-!
Verification development for the CP/M-86 disk-image tool
(`src/tools/lib/cpmimg.rs`).  The Rust source is shallowly embedded:
machine integers (`u8`, `u16`, `usize`) become `Nat` with explicit
`% 2^w` / `&&&` masks exactly where the source truncates, byte strings
become `List Nat`, file contents become `List Nat`, the mutable disk
file becomes either a pure byte map `Nat → Nat` (reads) or an explicit
list of `(offset, bytes)` write operations (writes), and fallible Rust
functions returning `anyhow::Result` become `Except String`/`Option`.
-/

namespace Cpm

/-! ### Constants (cpmimg.rs lines 9–25, 77) -/

def NUM_SIDES : Nat := 2
def NUM_TRACKS : Nat := 80
def NUM_SECTORS_PER_TRACK : Nat := 8
def NUM_BYTES_PER_SECTOR : Nat := 512
def TOTAL_DISKSIZE : Nat := NUM_TRACKS * NUM_SECTORS_PER_TRACK * NUM_BYTES_PER_SECTOR * NUM_SIDES
def BLOCKSIZE : Nat := 16 * 128
def DIRBLOCKS : Nat := 2
def DIRENTRY_SIZE : Nat := 32
def MAXDIR_ENTRIES : Nat := 128
def CATALOG_OFFSET : Nat := 0x2000
def DATA_OFFSET : Nat := CATALOG_OFFSET
def MAX_NUM_BLOCKS : Nat := (TOTAL_DISKSIZE - DATA_OFFSET) / BLOCKSIZE
def DISKSIZE_OFFSET : Nat := 0x1ff

/-! ### Disk geometry (`DiskSize`, cpmimg.rs lines 79–130) -/

inductive DiskSize where
  | K160 | K320 | K1200 | K360 | K720 | K360_2 | K720_2 | K1440 | K640
deriving DecidableEq, Repr

def DiskSize.hex_value : DiskSize → Nat
  | .K160 => 0x00
  | .K320 => 0x01
  | .K1200 => 0x0c
  | .K360 => 0x10
  | .K720 => 0x11
  | .K360_2 => 0x40
  | .K720_2 => 0x48
  | .K1440 => 0x90
  | .K640 => 0xe5

def DiskSize.num_bytes : DiskSize → Nat
  | .K160 => 160 * 1024
  | .K320 => 320 * 1024
  | .K1200 => 1200 * 1024
  | .K360 => 360 * 1024
  | .K720 => 720 * 1024
  | .K360_2 => 360 * 1024
  | .K720_2 => 720 * 1024
  | .K1440 => 1440 * 1024
  | .K640 => 636 * 1024

/-! ### Directory entries (struct `DirEntry`, cpmimg.rs lines 132–146).
Rust `u8`/`u16` fields are `Nat`s; `String` fields are lists of
character code points. -/

structure DirEntry where
  directory_entry_idx : Nat
  user_number : Nat
  filename : List Nat
  filetype : List Nat
  extent : Nat
  s2 : Nat
  s1 : Nat
  record_count : Nat
  allocation : List Nat
  readonly : Bool
  system : Bool
  entry_number : Nat
deriving DecidableEq, Repr

def DirEntry.is_full_extent (e : DirEntry) : Bool := 0x80 ≤ e.record_count

def DirEntry.extent_size (e : DirEntry) : Nat :=
  if e.is_full_extent then 128 * 128 else e.record_count * 128

/-- The 32-byte buffer built by `DirEntry::write_to_file`
(cpmimg.rs lines 161–193): user byte, filename and filetype characters
masked to 7 bits (`(c as u8) & 0x7F`, i.e. `c % 128`), the four header
bytes, the allocation words in little-endian order
(`u16::to_le_bytes al = [al % 256, (al >>> 8) % 256]`), zero-padded to
32 bytes; `none` models the `anyhow::bail!` when the buffer overflows
the 32-byte record. -/
def DirEntry.encodeBytes (e : DirEntry) : Option (List Nat) :=
  let buf : List Nat :=
    e.user_number ::
      (e.filename.map (fun c => c % 128) ++
       e.filetype.map (fun c => c % 128) ++
       [e.extent, e.s1, e.s2, e.record_count] ++
       e.allocation.flatMap (fun al => [al % 256, (al >>> 8) % 256]))
  if DIRENTRY_SIZE < buf.length then none
  else some (buf ++ List.replicate (DIRENTRY_SIZE - buf.length) 0)

/-- `DirEntry::write_to_file` as a pure write operation: the encoded
bytes together with the catalog offset they are written at
(cpmimg.rs lines 194–196). -/
def DirEntry.write_to_file (e : DirEntry) : Option (Nat × List Nat) :=
  e.encodeBytes.map (fun b => (CATALOG_OFFSET + e.directory_entry_idx * DIRENTRY_SIZE, b))

/-! ### Catalog decoding (`read_catalog`, cpmimg.rs lines 227–292). -/

/-- Rust `char::is_whitespace` restricted to the code points this
development ever trims (ASCII; the only non-ASCII code point produced
by `utf8LossyByte` is U+FFFD, which is not whitespace). -/
def isWsChar (c : Nat) : Bool := c = 0x20 || (9 ≤ c && c ≤ 13)

/-- `str::trim`: drop whitespace from both ends. -/
def trimChars (l : List Nat) : List Nat :=
  ((l.dropWhile isWsChar).reverse.dropWhile isWsChar).reverse

/-- Per-byte model of `String::from_utf8_lossy`: an ASCII byte decodes
to itself, any other byte to U+FFFD.  (A multi-byte UTF-8 sequence in
the 8-byte filename field would decode differently in Rust; every
filename byte handled in this development is ASCII, where the model is
exact.) -/
def utf8LossyByte (b : Nat) : Nat := if b < 0x80 then b else 0xFFFD

/-- `chunks_exact(2)` of the 16 AL bytes combined as
`(hi << 8) | lo` (cpmimg.rs lines 266–269); a trailing odd byte is
discarded, as `chunks_exact` does. -/
def lePairs : List Nat → List Nat
  | lo :: hi :: rest => ((hi <<< 8) ||| lo) :: lePairs rest
  | _ => []

/-- The body of `read_catalog`'s per-slot loop (cpmimg.rs lines
234–289): decode one 32-byte directory record at catalog slot `idx`;
`none` models the `continue` on the `0xE5` empty-slot sentinel. -/
def decodeDirEntry (entry : List Nat) (idx : Nat) : Option DirEntry :=
  let user_number := entry.getD 0 0
  if user_number = 0xE5 then none
  else
    let filename := trimChars (((entry.drop 1).take 8).map utf8LossyByte)
    let t1 := entry.getD 9 0
    let readonly : Bool := t1 &&& 0x80 != 0
    let system : Bool := entry.getD 10 0 &&& 0x80 != 0
    let extent := entry.getD 12 0
    let s1 := entry.getD 13 0
    let s2 := entry.getD 14 0
    let record_count := entry.getD 15 0
    let entry_number := 32 * s2 + extent
    let filetype := ((entry.drop 9).take 3).map (fun b => b &&& 0x7F)
    let allocation := (lePairs ((entry.drop 16).take 16)).filter (fun b => b ≠ 0)
    some
      { directory_entry_idx := idx
        user_number
        filename
        filetype
        extent
        s2
        s1
        record_count
        allocation
        readonly
        system
        entry_number }

/-! ### Logical files (struct `FileEntry`, cpmimg.rs lines 203–225). -/

structure FileEntry where
  first_directory_entry_idx : Nat
  user_number : Nat
  filename : List Nat
  filetype : List Nat
  readonly : Bool
  system : Bool
  extents : List DirEntry
deriving DecidableEq, Repr

def FileEntry.file_size (f : FileEntry) : Nat :=
  (f.extents.map DirEntry.extent_size).sum

/-! ### Extent merging (`merge_extents`, cpmimg.rs lines 294–330).
The Rust `HashMap<(u8,String,String), FileEntry>` is modelled as an
association list kept in first-insertion order; since the function
ends by sorting the produced file list and each file's extents, the
map's (unspecified) iteration order does not reach the result — which
is exactly what the order-independence theorem below establishes. -/

def dirKey (e : DirEntry) : Nat × List Nat × List Nat :=
  (e.user_number, e.filename, e.filetype)

def fileKey (f : FileEntry) : Nat × List Nat × List Nat :=
  (f.user_number, f.filename, f.filetype)

/-- The `or_insert` default (cpmimg.rs lines 301–309). -/
def newFileEntry (e : DirEntry) : FileEntry :=
  { first_directory_entry_idx := e.directory_entry_idx
    user_number := e.user_number
    filename := e.filename
    filetype := e.filetype
    readonly := false
    system := false
    extents := [] }

/-- The per-entry update after `or_insert` (cpmimg.rs lines 310–319). -/
def updateFileEntry (f : FileEntry) (e : DirEntry) : FileEntry :=
  { f with
    first_directory_entry_idx := min e.directory_entry_idx f.first_directory_entry_idx
    readonly := f.readonly || e.readonly
    system := f.system || e.system
    extents := f.extents ++ [e] }

def insertEntry : List FileEntry → DirEntry → List FileEntry
  | [], e => [updateFileEntry (newFileEntry e) e]
  | f :: rest, e =>
    if fileKey f = dirKey e then updateFileEntry f e :: rest
    else f :: insertEntry rest e

def mergeGroups (l : List DirEntry) : List FileEntry := l.foldl insertEntry []

def leFirstIdx (f g : FileEntry) : Prop :=
  f.first_directory_entry_idx ≤ g.first_directory_entry_idx

def leEntryNumber (a b : DirEntry) : Prop := a.entry_number ≤ b.entry_number

instance : DecidableRel leFirstIdx := fun f g => Nat.decLe _ _

instance : DecidableRel leEntryNumber := fun a b => Nat.decLe _ _

/-- `file_list.sort_by_key(first_directory_entry_idx)`: Rust's sort is
stable, as is insertion sort. -/
def sortFileList (l : List FileEntry) : List FileEntry :=
  l.insertionSort leFirstIdx

/-- `item.extents.sort_by_key(entry_number)`. -/
def sortExtents (f : FileEntry) : FileEntry :=
  { f with extents := f.extents.insertionSort leEntryNumber }

def merge_extents (l : List DirEntry) : List FileEntry :=
  (sortFileList (mergeGroups l)).map sortExtents

/-! ### File-name parsing (`split_cpm_file_name`, cpmimg.rs lines
332–347). Strings are lists of character code points. -/

def isDelimChar (c : Nat) : Bool := c = 0x3A || c = 0x2E

/-- Rust `str::split(|c| c == ':' || c == '.')`: `n` delimiters yield
`n+1` (possibly empty) parts. -/
def splitParts : List Nat → List (List Nat)
  | [] => [[]]
  | c :: rest =>
    if isDelimChar c then [] :: splitParts rest
    else
      match splitParts rest with
      | p :: ps => (c :: p) :: ps
      | [] => [[c]]

def decDigit? (c : Nat) : Option Nat :=
  if 0x30 ≤ c && c ≤ 0x39 then some (c - 0x30) else none

/-- `str::parse::<u8>()`: an optional leading `+`, then one or more
decimal digits, value at most 255; anything else is `none`. -/
def parseU8 (s : List Nat) : Option Nat :=
  let t := match s with
    | c :: rest => if c = 0x2B then rest else s
    | [] => s
  if t.isEmpty then none
  else
    (t.foldl (fun acc c => acc.bind fun a => (decDigit? c).map fun d => a * 10 + d)
        (some 0)).bind
      fun v => if v ≤ 255 then some v else none

/-- Rust `str::to_uppercase` on the ASCII range (the only range
exercised here; code points outside `a`–`z` are left unchanged, which
matches Unicode uppercasing for every code point this development
uses). -/
def toUpperChars (s : List Nat) : List Nat :=
  s.map (fun c => if 0x61 ≤ c && c ≤ 0x7A then c - 32 else c)

def split_cpm_file_name (cpm_file_name : List Nat) :
    Except String (Nat × List Nat × List Nat) :=
  let parts := splitParts cpm_file_name
  if parts.length ≠ 3 then
    .error "Invalid format, expected user:filename.filetype"
  else
    let user := (parseU8 (parts.getD 0 [])).getD 0
    let filename := toUpperChars (parts.getD 1 [])
    let filetype := toUpperChars (parts.getD 2 [])
    if 8 < filename.length || 3 < filetype.length then
      .error "Filename too long"
    else
      .ok (user, filename, filetype)

/-- `get_file_entry` (cpmimg.rs lines 349–360). -/
def get_file_entry (files : List FileEntry) (cpm_file_name : List Nat) :
    Except String (Option FileEntry) :=
  match split_cpm_file_name cpm_file_name with
  | .error e => .error e
  | .ok (user, filename, filetype) =>
    .ok (files.find? (fun f =>
      f.user_number = user &&
      toUpperChars f.filename = filename &&
      toUpperChars f.filetype = filetype))

/-! ### Block-number to byte-offset translation
(`allocation_to_offset`, cpmimg.rs lines 362–376).  The `usize`
subtraction in the side-1 branch never underflows on the valid block
range, where Nat truncated subtraction agrees with it. -/

def allocation_to_offset (al : Nat) : Nat :=
  let even := al &&& 0xfffe
  let odd := al &&& 1
  if al < 0x9e then
    DATA_OFFSET + even * BLOCKSIZE * NUM_SIDES + odd * BLOCKSIZE
  else
    TOTAL_DISKSIZE - (even - 0x9d) * BLOCKSIZE * NUM_SIDES + odd * BLOCKSIZE

/-! ### Image creation (`create_image`, cpmimg.rs lines 546–568).
The created file is modelled as the list of its bytes: `num_tracks *
NUM_SECTORS_PER_TRACK` sectors of 512 `0xE5` bytes, then the media
descriptor overwritten at `DISKSIZE_OFFSET`. -/

def create_image (size : DiskSize) : List Nat :=
  let num_tracks := size.num_bytes / NUM_BYTES_PER_SECTOR / NUM_SECTORS_PER_TRACK
  let sectors := List.replicate (num_tracks * NUM_SECTORS_PER_TRACK)
      (List.replicate NUM_BYTES_PER_SECTOR 0xe5)
  sectors.flatten.set DISKSIZE_OFFSET size.hex_value

/-! ### Copy-out (`copy_out`, cpmimg.rs lines 378–412).  The image is
read-only here, so it is modelled as a byte map `disk : Nat → Nat`;
`read_exact` of `n` bytes at offset `o` yields the `n` bytes
`disk o, …, disk (o+n-1)`. -/

def readBytes (disk : Nat → Nat) (off n : Nat) : List Nat :=
  (List.range n).map (fun i => disk (off + i))

/-- The inner loop of `copy_out` over one extent's allocation list
(cpmimg.rs lines 385–401): returns the bytes written to `out` and the
updated `written` counter; the early `break` once `written >=
total_size` cuts the recursion off. -/
def copyOutExtent (disk : Nat → Nat) (total : Nat) :
    Nat → List Nat → List Nat × Nat
  | written, [] => ([], written)
  | written, b :: rest =>
    if b = 0 then copyOutExtent disk total written rest
    else
      let read_size := min BLOCKSIZE (total - written)
      let buf := readBytes disk (allocation_to_offset b) read_size
      let written2 := written + read_size
      if total ≤ written2 then (buf, written2)
      else
        let r := copyOutExtent disk total written2 rest
        (buf ++ r.1, r.2)

/-- The outer loop of `copy_out` over the file's extents
(cpmimg.rs lines 384–405). -/
def copyOutGo (disk : Nat → Nat) (total : Nat) :
    Nat → List DirEntry → List Nat × Nat
  | written, [] => ([], written)
  | written, e :: rest =>
    let r := copyOutExtent disk total written e.allocation
    if total ≤ r.2 then (r.1, r.2)
    else
      let r2 := copyOutGo disk total r.2 rest
      (r.1 ++ r2.1, r2.2)

/-- `copy_out` after the `get_file_entry` lookup has resolved
`file_entry` (the `NotFound` bail is the `else` branch of the source
and does not touch the read loop): the bytes written to `out`. -/
def copy_out_bytes (disk : Nat → Nat) (file_entry : FileEntry) : List Nat :=
  (copyOutGo disk file_entry.file_size 0 file_entry.extents).1

/-! ### Copy-in (`copy_in`, cpmimg.rs lines 414–543). -/

/-- The chunking loop (cpmimg.rs lines 427–431): repeatedly drain
`min(BLOCKSIZE, len)` bytes. -/
def chunksBlocks (file_data : List Nat) : List (List Nat) :=
  if h : file_data = [] then []
  else
    let chunk_size := min BLOCKSIZE file_data.length
    file_data.take chunk_size :: chunksBlocks (file_data.drop chunk_size)
termination_by file_data.length
decreasing_by
  simp only [List.length_drop]
  have hlen : 0 < file_data.length := List.length_pos.mpr h
  have hbs : (0:Nat) < BLOCKSIZE := by norm_num [BLOCKSIZE]
  omega

/-- The `DirEntry`-building loop of `copy_in` (cpmimg.rs lines
484–518).  `i` is the loop counter, `n` the number of iterations left
(initially `entries_needed`), and `blocks_left`, `free_blocks`,
`file_len_left` the loop-carried state.  `free_entries.getD i 0`
models `free_entries[i]` (in `copy_in` the bounds check has already
ensured `i < free_entries.len()`); `i as u8`/`i as u16` casts are the
explicit masks.  The Rust `file_len_left -= 8*BLOCKSIZE` is a `usize`
subtraction whose value is only read again on a later iteration, where
it never underflows; Nat truncated subtraction agrees there. -/
def mkEntriesGo (user : Nat) (filename filetype : List Nat)
    (free_entries : List Nat) :
    Nat → Nat → Nat → List Nat → Nat → List DirEntry
  | _, 0, _, _, _ => []
  | i, n + 1, blocks_left, free_blocks, file_len_left =>
    let take0 := min 8 blocks_left
    let al_list := free_blocks.take take0
    let blocks_left2 := blocks_left - al_list.length
    let record_count : Nat :=
      if al_list.length < 8 then file_len_left / 128 % 256 else 0x80
    let file_len_left2 : Nat :=
      if al_list.length < 8 then file_len_left else file_len_left - 8 * BLOCKSIZE
    { directory_entry_idx := free_entries.getD i 0
      user_number := user
      filename := filename
      filetype := filetype
      extent := i &&& 0x1f
      s2 := (i >>> 5) &&& 0xff
      s1 := 0
      record_count := record_count
      allocation := al_list
      readonly := false
      system := false
      entry_number := i % 65536 } ::
      mkEntriesGo user filename filetype free_entries (i + 1) n blocks_left2
        (free_blocks.drop take0) file_len_left2

/-- `used_entries` bitmap (cpmimg.rs lines 436–441).  (`List.set` out
of range is a no-op; in Rust an out-of-range `directory_entry_idx`
would panic, but every index produced by `read_catalog` is < 128.) -/
def usedEntries (files : List FileEntry) : List Bool :=
  files.foldl
    (fun ue f => f.extents.foldl
      (fun ue e => ue.set e.directory_entry_idx true) ue)
    (List.replicate MAXDIR_ENTRIES false)

/-- `used_blocks` bitmap (cpmimg.rs lines 455–470): blocks 0 and 1
reserved, out-of-range block numbers reported and skipped. -/
def usedBlocks (files : List FileEntry) : List Bool :=
  files.foldl
    (fun ub f => f.extents.foldl
      (fun ub e => e.allocation.foldl
        (fun ub al => if al < ub.length then ub.set al true else ub) ub)
      ub)
    (((List.replicate MAX_NUM_BLOCKS false).set 0 true).set 1 true)

/-- `enumerate`-and-filter loops collecting the indices of the free
slots (cpmimg.rs lines 443–448 and 472–477). -/
def freeIndices (used : List Bool) : List Nat :=
  (used.enum.filter (fun p => !p.2)).map (fun p => p.1)

/-- `copy_in` (cpmimg.rs lines 414–543) as a pure function from the
pre-state (`files`, the merged catalog; `file_data`, the source bytes)
to either an error or the list of `(offset, bytes)` writes performed
on the image, in program order: first each new directory entry, then
each data block.  The two `.error "panic: …"` branches model Rust
panics (`file_entries[0]` on an empty entry list, `iter.next()
.unwrap()` on missing data chunks); neither is reachable from
`copy_in`'s call site invariants, but they are kept so the model stays
total and faithful. -/
def copy_in (files : List FileEntry) (cpm_file_name : List Nat)
    (file_data : List Nat) : Except String (List (Nat × List Nat)) :=
  match get_file_entry files cpm_file_name with
  | .error e => .error e
  | .ok (some _) => .error "File already exists in image"
  | .ok none =>
    match split_cpm_file_name cpm_file_name with
    | .error e => .error e
    | .ok (user, filename, filetype) =>
      let file_len := (file_data.length + 127) / 128 * 128
      let blocks := chunksBlocks file_data
      let blocks_needed := blocks.length
      let entries_needed := (blocks_needed + 7) / 8
      let free_entries := freeIndices (usedEntries files)
      if free_entries.length < entries_needed then
        .error "Not enough free entries in directory"
      else
        let free_blocks := freeIndices (usedBlocks files)
        if entries_needed = 0 then .error "panic: index out of bounds"
        else
          let file_entries := mkEntriesGo user filename filetype free_entries
            0 entries_needed blocks_needed free_blocks file_len
          match file_entries.mapM DirEntry.write_to_file with
          | none => .error "Directory entry is too large"
          | some dirWrites =>
            let als := file_entries.flatMap DirEntry.allocation
            if blocks.length < als.length then .error "panic: unwrap on None"
            else
              .ok (dirWrites ++
                (als.zip blocks).map
                  (fun p => (allocation_to_offset p.1, p.2)))

/-! ### Definitions supporting the claim statements -/

/-- The block-to-offset formula exactly as claim C2 words it
(spec §4.3): threshold `0x9e` used both as the comparison bound and as
the subtrahend of the side-1 branch. -/
def specOffsetFormula (b : Nat) : Nat :=
  let threshold := 0x9e
  let even := 2 * (b / 2)
  let parity := b % 2
  if b < threshold then
    DATA_OFFSET + even * BLOCKSIZE * NUM_SIDES + parity * BLOCKSIZE
  else
    TOTAL_DISKSIZE - (even - threshold) * BLOCKSIZE * NUM_SIDES + parity * BLOCKSIZE

/-- Claim C2's formula amended no more than the counterexample forces:
the side-1 branch subtracts from `threshold - 1 = 0x9d`, not from the
threshold itself. -/
def amendedOffsetFormula (b : Nat) : Nat :=
  let threshold := 0x9e
  let even := 2 * (b / 2)
  let parity := b % 2
  if b < threshold then
    DATA_OFFSET + even * BLOCKSIZE * NUM_SIDES + parity * BLOCKSIZE
  else
    TOTAL_DISKSIZE - (even - (threshold - 1)) * BLOCKSIZE * NUM_SIDES + parity * BLOCKSIZE

/-- A concrete 32-byte directory record whose sixteen AL bytes
(bytes 16–31) are all nonzero: `1:ABCDEFGH.IJK`, extent 0,
record count 3, AL bytes all `0x01`. -/
def sampleRecord16 : List Nat :=
  [1, 65, 66, 67, 68, 69, 70, 71, 72, 73, 74, 75, 0, 0, 0, 3] ++
    List.replicate 16 1

/-- A directory entry whose allocation list covers every allocatable
block (2–315), leaving zero free blocks on the image. -/
def blockHogEntry : DirEntry :=
  { directory_entry_idx := 0
    user_number := 0
    filename := [88]
    filetype := [89]
    extent := 0
    s2 := 0
    s1 := 0
    record_count := 0x80
    allocation := (List.range 314).map (fun i => i + 2)
    readonly := false
    system := false
    entry_number := 0 }

/-- A merged catalog (file `0:X.Y`) that uses directory slot 0 and
every data block of the image: 127 directory slots remain free but no
data block does. -/
def fullImageFiles : List FileEntry :=
  [{ first_directory_entry_idx := 0
     user_number := 0
     filename := [88]
     filetype := [89]
     readonly := false
     system := false
     extents := [blockHogEntry] }]

/-- The CP/M file name `0:A.B` as a code-point list. -/
def cpmNameA : List Nat := [0x30, 0x3A, 0x41, 0x2E, 0x42]

/-- The CP/M file name `ab:X.Y` (non-numeric user part). -/
def cpmNameBadUser : List Nat := [0x61, 0x62, 0x3A, 0x58, 0x2E, 0x59]

/-- A directory record that is valid by claim C4's wording (8-char
filename `ABCDEFGH`, 3-char filetype `TXT`, one allocation block) and
carries the readonly flag. -/
def roundtripCounterEntry : DirEntry :=
  { directory_entry_idx := 5
    user_number := 1
    filename := [65, 66, 67, 68, 69, 70, 71, 72]
    filetype := [84, 88, 84]
    extent := 0
    s2 := 0
    s1 := 0
    record_count := 1
    allocation := [2]
    readonly := true
    system := false
    entry_number := 0 }

/-- A directory record inside the amended round-trip domain:
`0:CPMFILEX.COM`, extent 1, record count 12, blocks 5 and 6, no
flags. -/
def roundtripOkEntry : DirEntry :=
  { directory_entry_idx := 3
    user_number := 0
    filename := [67, 80, 77, 70, 73, 76, 69, 88]
    filetype := [67, 79, 77]
    extent := 1
    s2 := 0
    s1 := 0
    record_count := 12
    allocation := [5, 6]
    readonly := false
    system := false
    entry_number := 1 }

/-- The nonzero block numbers of a file in extent order — the blocks
claim C6 says `copy_out` reads. -/
def nonzeroBlocks (f : FileEntry) : List Nat :=
  (f.extents.flatMap DirEntry.allocation).filter (fun b => b ≠ 0)

/-- `copy_out`'s two nested loops with their zero-block `continue` and
double `break` flattened into one loop over the remaining nonzero
block list; the correspondence with `copyOutGo`/`copyOutExtent` is
proved below. -/
def copyOutFlat (disk : Nat → Nat) (total : Nat) : Nat → List Nat → List Nat
  | _, [] => []
  | written, b :: rest =>
    let read_size := min BLOCKSIZE (total - written)
    let buf := readBytes disk (allocation_to_offset b) read_size
    if total ≤ written + read_size then buf
    else buf ++ copyOutFlat disk total (written + read_size) rest

/-- The read schedule exactly as claim C6 words it: walk the nonzero
blocks in extent order; while more than a block's worth of the file
remains, read exactly `BLOCKSIZE` bytes; at the file's final block
read only the remaining `total - written` bytes; emit nothing once
`total` bytes are out. -/
def specCopyOutReads (disk : Nat → Nat) (total : Nat) : Nat → List Nat → List Nat
  | _, [] => []
  | written, b :: rest =>
    if total ≤ written then []
    else if total - written ≤ BLOCKSIZE then
      readBytes disk (allocation_to_offset b) (total - written)
    else
      readBytes disk (allocation_to_offset b) BLOCKSIZE ++
        specCopyOutReads disk total (written + BLOCKSIZE) rest

/-- A one-extent file (`0:F.D`, record count 1, data block 2) used to
instantiate the copy-out theorem. -/
def smallOutEntry : DirEntry :=
  { directory_entry_idx := 0
    user_number := 0
    filename := [70]
    filetype := [68]
    extent := 0
    s2 := 0
    s1 := 0
    record_count := 1
    allocation := [2]
    readonly := false
    system := false
    entry_number := 0 }

def smallOutFile : FileEntry :=
  { first_directory_entry_idx := 0
    user_number := 0
    filename := [70]
    filetype := [68]
    readonly := false
    system := false
    extents := [smallOutEntry] }

/-- The distinct `dirKey`s of a catalog in first-appearance order. -/
def firstKeys (l : List DirEntry) : List (Nat × List Nat × List Nat) :=
  l.foldl (fun ks e => if dirKey e ∈ ks then ks else ks ++ [dirKey e]) []

/-- The entries of a catalog with a given key, in scan order. -/
def groupFor (l : List DirEntry) (k : Nat × List Nat × List Nat) : List DirEntry :=
  l.filter (fun e => dirKey e = k)

/-- The running minimum of the directory-slot indices of a group,
exactly as `merge_extents`'s fold computes it. -/
def minIdxOf (g : List DirEntry) : Nat :=
  g.foldl (fun m e => min e.directory_entry_idx m)
    ((g.map DirEntry.directory_entry_idx).headD 0)

/-- The logical file `merge_extents`'s fold builds for key `k` from
catalog `l`: extents in scan order, running-minimum slot index, OR-ed
flags, identity fields from the key. -/
def fileOf (l : List DirEntry) (k : Nat × List Nat × List Nat) : FileEntry :=
  { first_directory_entry_idx := minIdxOf (groupFor l k)
    user_number := k.1
    filename := k.2.1
    filetype := k.2.2
    readonly := (groupFor l k).foldl (fun b e => b || e.readonly) false
    system := (groupFor l k).foldl (fun b e => b || e.system) false
    extents := groupFor l k }

/-- Three extents of one file `0:M.X` with global extent sequence
numbers 3, 1 and 2 (in that scan order). -/
def mergeExampleE1 : DirEntry :=
  { directory_entry_idx := 0, user_number := 0, filename := [77], filetype := [88]
    extent := 3, s2 := 0, s1 := 0, record_count := 0x80, allocation := [2]
    readonly := false, system := false, entry_number := 3 }

def mergeExampleE2 : DirEntry :=
  { directory_entry_idx := 1, user_number := 0, filename := [77], filetype := [88]
    extent := 1, s2 := 0, s1 := 0, record_count := 0x80, allocation := [3]
    readonly := true, system := false, entry_number := 1 }

def mergeExampleE3 : DirEntry :=
  { directory_entry_idx := 2, user_number := 0, filename := [77], filetype := [88]
    extent := 2, s2 := 0, s1 := 0, record_count := 4, allocation := [4]
    readonly := false, system := true, entry_number := 2 }

/-- One scan order: sequence numbers appear as `[3, 1, 2]`. -/
def mergeExampleIn1 : List DirEntry := [mergeExampleE1, mergeExampleE2, mergeExampleE3]

/-- Another scan order of the same three extents. -/
def mergeExampleIn2 : List DirEntry := [mergeExampleE3, mergeExampleE1, mergeExampleE2]

end Cpm

namespace Cpm

/-! ### Helper lemmas -/

theorem flatten_replicate_replicate (n m : Nat) (a : Nat) :
    (List.replicate n (List.replicate m a)).flatten = List.replicate (n * m) a := by
  induction n with
  | zero => simp
  | succ k ih =>
    rw [List.replicate_succ, List.flatten_cons, ih, Nat.succ_mul, Nat.add_comm,
      ← List.replicate_add]

theorem foldl_set_true_length (S : List Nat) (l : List Bool) :
    (S.foldl (fun ub al => if al < ub.length then ub.set al true else ub) l).length =
      l.length := by
  induction S generalizing l with
  | nil => rfl
  | cons a S ih =>
    simp only [List.foldl_cons]
    rw [ih]
    split <;> simp

theorem foldl_set_true_getElem (S : List Nat) (l : List Bool) (i : Nat) :
    (S.foldl (fun ub al => if al < ub.length then ub.set al true else ub) l)[i]? =
      if i ∈ S ∧ i < l.length then some true else l[i]? := by
  induction S generalizing l with
  | nil => simp
  | cons a S ih =>
    simp only [List.foldl_cons]
    rw [ih]
    have hmem : (i ∈ a :: S) ↔ (i = a ∨ i ∈ S) := List.mem_cons
    by_cases ha : a < l.length
    · rw [if_pos ha, List.length_set]
      by_cases hc : i ∈ S ∧ i < l.length
      · rw [if_pos hc, if_pos (⟨hmem.mpr (Or.inr hc.1), hc.2⟩ :
          i ∈ a :: S ∧ i < l.length)]
      · rw [if_neg hc, List.getElem?_set]
        by_cases hai : a = i
        · subst hai
          rw [if_pos rfl, if_pos ha, if_pos ⟨List.mem_cons_self a S, ha⟩]
        · rw [if_neg hai]
          by_cases hil : i < l.length
          · have hiS : i ∉ S := fun h => hc ⟨h, hil⟩
            rw [if_neg ?_]
            intro hh
            rcases hmem.mp hh.1 with h1 | h2
            · exact hai h1.symm
            · exact hiS h2
          · rw [if_neg (fun hh => hil hh.2)]
    · rw [if_neg ha]
      by_cases hc : i ∈ S ∧ i < l.length
      · rw [if_pos hc, if_pos (⟨hmem.mpr (Or.inr hc.1), hc.2⟩ :
          i ∈ a :: S ∧ i < l.length)]
      · by_cases hca : i ∈ (a :: S) ∧ i < l.length
        · exfalso
          rcases hca with ⟨hm, hil⟩
          rcases hmem.mp hm with h1 | h2
          · exact ha (h1 ▸ hil)
          · exact hc ⟨h2, hil⟩
        · rw [if_neg hc, if_neg hca]

/-- On the image whose catalog is `fullImageFiles`, every allocatable
block is marked used. -/
theorem usedBlocks_fullImageFiles :
    usedBlocks fullImageFiles = List.replicate MAX_NUM_BLOCKS true := by
  unfold usedBlocks
  simp only [fullImageFiles, List.foldl_cons, List.foldl_nil]
  apply List.ext_getElem?
  intro i
  rw [foldl_set_true_getElem]
  have hlen0 : (((List.replicate MAX_NUM_BLOCKS false).set 0 true).set 1 true).length =
      MAX_NUM_BLOCKS := by simp
  have hmax : MAX_NUM_BLOCKS = 316 := rfl
  rw [hlen0]
  by_cases hi : i < MAX_NUM_BLOCKS
  · by_cases h2 : 2 ≤ i
    · have hm : i ∈ blockHogEntry.allocation := by
        have hm316 : i < 316 := by rw [← hmax]; exact hi
        simp only [blockHogEntry, List.mem_map, List.mem_range]
        exact ⟨i - 2, by omega, by omega⟩
      rw [if_pos ⟨hm, hi⟩, List.getElem?_replicate, if_pos hi]
    · have hm : i ∉ blockHogEntry.allocation := by
        simp only [blockHogEntry, List.mem_map, List.mem_range]
        rintro ⟨a, -, ha2⟩
        omega
      rw [if_neg (fun hh => hm hh.1)]
      have h01 : i = 0 ∨ i = 1 := by omega
      rcases h01 with h | h <;> subst h
      · rw [List.getElem?_set, if_neg (by omega), List.getElem?_set, if_pos rfl,
          List.length_replicate, if_pos hi, List.getElem?_replicate, if_pos hi]
      · rw [List.getElem?_set, if_pos rfl, List.length_set, List.length_replicate,
          if_pos hi, List.getElem?_replicate, if_pos hi]
  · rw [if_neg (fun hh => hi hh.2), List.getElem?_replicate, if_neg hi]
    rw [hmax] at hi
    rw [List.getElem?_set, if_neg (by omega), List.getElem?_set, if_neg (by omega),
      List.getElem?_replicate, if_neg (by rw [hmax]; omega)]

/-- Length of the chunking loop's output: `ceil(len / BLOCKSIZE)`. -/
theorem chunksBlocks_length (l : List Nat) :
    (chunksBlocks l).length = (l.length + BLOCKSIZE - 1) / BLOCKSIZE := by
  have key : ∀ n (l : List Nat), l.length ≤ n →
      (chunksBlocks l).length = (l.length + BLOCKSIZE - 1) / BLOCKSIZE := by
    intro n
    induction n with
    | zero =>
      intro l h
      have hnil : l = [] := List.eq_nil_of_length_eq_zero (by omega)
      subst hnil
      rw [chunksBlocks]
      simp [BLOCKSIZE]
    | succ k ih =>
      intro l h
      rw [chunksBlocks]
      by_cases hnil : l = []
      · rw [dif_pos hnil]
        subst hnil
        simp [BLOCKSIZE]
      · rw [dif_neg hnil]
        have hpos : 0 < l.length := List.length_pos.mpr hnil
        have hbs : BLOCKSIZE = 2048 := rfl
        simp only [hbs, List.length_cons, List.length_drop]
        rw [ih (l.drop (min 2048 l.length)) (by simp only [List.length_drop]; omega)]
        simp only [List.length_drop, hbs]
        omega
  exact key l.length l (Nat.le_refl _)

/-- `str::trim` leaves a whitespace-free string unchanged. -/
theorem trimChars_eq_self (l : List Nat) (h : ∀ c ∈ l, isWsChar c = false) :
    trimChars l = l := by
  have hdw : ∀ m : List Nat, (∀ c ∈ m, isWsChar c = false) →
      m.dropWhile isWsChar = m := by
    intro m hm
    cases m with
    | nil => rfl
    | cons a t =>
      rw [List.dropWhile_cons, if_neg (by rw [hm a (List.mem_cons_self a t)]; simp)]
  unfold trimChars
  rw [hdw l h, hdw l.reverse (fun c hc => h c (List.mem_reverse.mp hc)),
    List.reverse_reverse]

/-- `c & 0x7F` is the identity below 128. -/
theorem land_7F_eq (c : Nat) (hc : c < 128) : c &&& 0x7F = c := by
  have h7 : (0x7F : Nat) = 2 ^ 7 - 1 := rfl
  rw [h7, Nat.and_pow_two_sub_one_eq_mod, Nat.mod_eq_of_lt hc]

/-- Bit 7 of a value below 128 is clear. -/
theorem land_80_eq_zero (c : Nat) (hc : c < 128) : c &&& 0x80 = 0 := by
  have h8 : (0x80 : Nat) = 2 ^ 7 := rfl
  rw [h8, Nat.and_two_pow, Nat.testBit_lt_two_pow hc]
  rfl

/-- Recombining a shifted high byte with a low byte below 256. -/
theorem shiftLeft8_lor_eq (h l : Nat) (hl : l < 256) :
    (h <<< 8) ||| l = h * 256 + l := by
  apply Nat.eq_of_testBit_eq
  intro i
  rw [Nat.testBit_lor, Nat.testBit_shiftLeft]
  have harith : h * 256 + l = 2 ^ 8 * h + l := by ring
  rw [harith, Nat.testBit_mul_pow_two_add h (show l < 2 ^ 8 by omega) i]
  by_cases hi : i < 8
  · rw [if_pos hi]
    have hge : ¬ (i ≥ 8) := by omega
    simp [hge]
  · rw [if_neg hi]
    have hge : i ≥ 8 := by omega
    have hbit : l.testBit i = false :=
      Nat.testBit_lt_two_pow (lt_of_lt_of_le hl (by
        calc (256 : Nat) = 2 ^ 8 := rfl
          _ ≤ 2 ^ i := Nat.pow_le_pow_right (by norm_num) hge))
    simp [hge, hbit]

/-- `u16::to_le_bytes` followed by `(hi << 8) | lo` is the identity on
16-bit values. -/
theorem le_bytes_roundtrip (al : Nat) (h : al < 65536) :
    (((al >>> 8) % 256) <<< 8) ||| (al % 256) = al := by
  have hdiv : al >>> 8 = al / 256 := by
    rw [Nat.shiftRight_eq_div_pow]
  have hlt : al / 256 < 256 := by omega
  rw [hdiv, Nat.mod_eq_of_lt hlt,
    shiftLeft8_lor_eq _ _ (Nat.mod_lt _ (by norm_num))]
  omega

/-- Two bytes per allocation word. -/
theorem length_leBytes (l : List Nat) :
    (l.flatMap fun al => [al % 256, (al >>> 8) % 256]).length = 2 * l.length := by
  induction l with
  | nil => rfl
  | cons a t ih =>
    simp only [List.flatMap_cons, List.length_append, List.length_cons, ih,
      List.length_nil]
    omega

/-- `chunks_exact(2)` over encoded allocation words plus an even
zero pad splits back into the recombined words plus zero words. -/
theorem lePairs_leBytes_append (alloc : List Nat) (m : Nat) :
    lePairs ((alloc.flatMap fun al => [al % 256, (al >>> 8) % 256]) ++
        List.replicate (2 * m) 0) =
      alloc.map (fun al => (((al >>> 8) % 256) <<< 8) ||| (al % 256)) ++
        List.replicate m 0 := by
  induction alloc with
  | nil =>
    simp only [List.flatMap_nil, List.nil_append, List.map_nil]
    induction m with
    | zero => rfl
    | succ k ihm =>
      have h2 : 2 * (k + 1) = (2 * k) + 1 + 1 := by omega
      rw [h2, List.replicate_succ, List.replicate_succ, lePairs, ihm,
        List.replicate_succ]
      rfl
  | cons al t ih =>
    simp only [List.flatMap_cons, List.cons_append, List.nil_append,
      List.append_assoc]
    rw [lePairs]
    simp only [List.map_cons, List.cons_append, List.nil_append]
    rw [ih]

/-- `getD` through the left part of an append. -/
theorem getD_append_left (l₁ l₂ : List Nat) (n : Nat) (h : n < l₁.length) :
    (l₁ ++ l₂).getD n 0 = l₁.getD n 0 := by
  rw [List.getD_eq_getElem?_getD, List.getElem?_append, if_pos h,
    ← List.getD_eq_getElem?_getD]

/-- `getD` through the right part of an append. -/
theorem getD_append_right (l₁ l₂ : List Nat) (n : Nat) (h : l₁.length ≤ n) :
    (l₁ ++ l₂).getD n 0 = l₂.getD (n - l₁.length) 0 := by
  rw [List.getD_eq_getElem?_getD, List.getElem?_append_right h,
    ← List.getD_eq_getElem?_getD]

/-- `chunks_exact(2)` over a list of even length `2n`, as a map over
pair indices. -/
theorem lePairs_eq_map_range (n : Nat) :
    ∀ l : List Nat, l.length = 2 * n →
      lePairs l = (List.range n).map
        (fun k => (l.getD (2 * k + 1) 0 <<< 8) ||| l.getD (2 * k) 0) := by
  induction n with
  | zero =>
    intro l h
    have hnil : l = [] := List.eq_nil_of_length_eq_zero (by omega)
    subst hnil
    rfl
  | succ m ih =>
    intro l h
    match l with
    | a :: b :: rest =>
      have hrest : rest.length = 2 * m := by
        simp only [List.length_cons] at h
        omega
      have htl : (List.range m).map
          (fun k => (rest.getD (2 * k + 1) 0 <<< 8) ||| rest.getD (2 * k) 0) =
          (List.range m).map
            ((fun k => ((a :: b :: rest).getD (2 * k + 1) 0 <<< 8) |||
              (a :: b :: rest).getD (2 * k) 0) ∘ Nat.succ) := by
        apply List.map_congr_left
        intro k hk
        simp only [Function.comp_apply]
        have e1 : (a :: b :: rest).getD (2 * Nat.succ k + 1) 0 =
            rest.getD (2 * k + 1) 0 := by
          have harith : 2 * Nat.succ k + 1 = (2 * k + 1) + 1 + 1 := by omega
          rw [harith, List.getD_cons_succ, List.getD_cons_succ]
        have e2 : (a :: b :: rest).getD (2 * Nat.succ k) 0 =
            rest.getD (2 * k) 0 := by
          have harith : 2 * Nat.succ k = (2 * k) + 1 + 1 := by omega
          rw [harith, List.getD_cons_succ, List.getD_cons_succ]
        rw [e1, e2]
      rw [lePairs, ih rest hrest, htl, List.range_succ_eq_map, List.map_cons,
        List.map_map]
      rfl

/-- `parse::<u8>` never returns a value above 255. -/
theorem parseU8_le (s : List Nat) (v : Nat) (h : parseU8 s = some v) : v ≤ 255 := by
  simp only [parseU8] at h
  split at h
  · exact absurd h (by simp)
  · rw [Option.bind_eq_some] at h
    obtain ⟨w, -, hw⟩ := h
    split at hw
    · cases hw
      assumption
    · exact absurd hw (by simp)

/-- The entry-building loop creates exactly as many entries as it
iterates. -/
theorem mkEntriesGo_length (user : Nat) (fn ft : List Nat) (fe : List Nat) :
    ∀ (n i bl fl : Nat) (fb : List Nat),
      (mkEntriesGo user fn ft fe i n bl fb fl).length = n := by
  intro n
  induction n with
  | zero => intro i bl fl fb; rfl
  | succ k ih =>
    intro i bl fl fb
    rw [mkEntriesGo, List.length_cons, ih]

/-- Behaviour of the entry-building loop of `copy_in` when the free
block list can cover all `bl` remaining blocks and the iteration count
is the exact ceiling `k+1 = ceil(bl/8)`: every full entry (8
allocation slots) carries the `0x80` sentinel, and an entry with fewer
than 8 slots can only be the last one, holding the final `bl - 8k`
blocks with record count `file_len_left/128` (as `u8`) computed from
the running remainder. -/
theorem mkEntriesGo_record_counts (user : Nat) (fn ft fe : List Nat) :
    ∀ (k i bl fl : Nat) (fb : List Nat),
      8 * k < bl → bl ≤ 8 * (k + 1) → bl ≤ fb.length →
      ((∀ e ∈ mkEntriesGo user fn ft fe i (k + 1) bl fb fl,
          e.allocation.length = 8 → e.record_count = 0x80) ∧
        (∀ e ∈ mkEntriesGo user fn ft fe i (k + 1) bl fb fl,
          e.allocation.length ≠ 8 →
            (mkEntriesGo user fn ft fe i (k + 1) bl fb fl).getLast? = some e ∧
              e.record_count = (fl - 16384 * k) / 128 % 256 ∧
              e.allocation.length = bl - 8 * k)) := by
  intro k
  induction k with
  | zero =>
    intro i bl fl fb hlo hhi hfb
    have hmin : min 8 bl = bl := Nat.min_eq_right (by omega)
    have hlen : (fb.take (min 8 bl)).length = bl := by
      rw [hmin, List.length_take]
      exact Nat.min_eq_left hfb
    rw [mkEntriesGo, mkEntriesGo]
    constructor
    · intro e he h8
      rw [List.mem_singleton] at he
      subst he
      simp only at h8 ⊢
      rw [if_neg (by rw [hlen] at h8 ⊢; omega)]
    · intro e he h8
      rw [List.mem_singleton] at he
      subst he
      simp only at h8 ⊢
      rw [hlen] at h8
      refine ⟨rfl, ?_, ?_⟩
      · rw [if_pos (by rw [hlen]; omega)]
        simp only [Nat.mul_zero, Nat.sub_zero]
      · rw [hlen]
        omega
  | succ k ih =>
    intro i bl fl fb hlo hhi hfb
    have hmin : min 8 bl = 8 := Nat.min_eq_left (by omega)
    have hlen : (fb.take (min 8 bl)).length = 8 := by
      rw [hmin, List.length_take]
      exact Nat.min_eq_left (by omega)
    have hdrop : (fb.drop (min 8 bl)).length = fb.length - 8 := by
      rw [hmin, List.length_drop]
    have hih := ih (i + 1) (bl - 8) (fl - 8 * BLOCKSIZE) (fb.drop (min 8 bl))
      (by omega) (by omega) (by rw [hdrop]; omega)
    rw [mkEntriesGo, hlen]
    simp only [if_neg (show ¬ ((8 : Nat) < 8) by omega)]
    constructor
    · intro e he h8
      rcases List.mem_cons.mp he with rfl | htail
      · rfl
      · exact hih.1 e htail h8
    · intro e he h8
      rcases List.mem_cons.mp he with rfl | htail
      · exact absurd hlen h8
      · obtain ⟨hlast, hrc, hal⟩ := hih.2 e htail h8
        have hne : mkEntriesGo user fn ft fe (i + 1) (k + 1) (bl - 8)
            (fb.drop (min 8 bl)) (fl - 8 * BLOCKSIZE) ≠ [] := by
          intro hnil
          have hlenrec := mkEntriesGo_length user fn ft fe (k + 1) (i + 1) (bl - 8)
            (fl - 8 * BLOCKSIZE) (fb.drop (min 8 bl))
          rw [hnil] at hlenrec
          simp at hlenrec
        obtain ⟨x, L, hxL⟩ := List.exists_cons_of_ne_nil hne
        refine ⟨?_, ?_, ?_⟩
        · rw [hxL, List.getLast?_cons_cons, ← hxL, hlast]
        · rw [hrc]
          have harith : fl - 8 * BLOCKSIZE - 16384 * k = fl - 16384 * (k + 1) := by
            have hbs : BLOCKSIZE = 2048 := rfl
            rw [hbs]
            omega
          rw [harith]
        · rw [hal]
          omega


end Cpm

namespace Cpm

/-- `read_exact` returns as many bytes as requested. -/
theorem readBytes_length (disk : Nat → Nat) (off n : Nat) :
    (readBytes disk off n).length = n := by
  simp [readBytes]

/-- The `written` counter equals the initial counter plus the bytes
emitted so far. -/
theorem copyOutExtent_snd (disk : Nat → Nat) (total : Nat) :
    ∀ (bl : List Nat) (w : Nat),
      (copyOutExtent disk total w bl).2 =
        w + (copyOutExtent disk total w bl).1.length := by
  intro bl
  induction bl with
  | nil => intro w; simp [copyOutExtent]
  | cons b rest ih =>
    intro w
    simp only [copyOutExtent]
    by_cases hb : b = 0
    · rw [if_pos hb]
      exact ih w
    · rw [if_neg hb]
      by_cases hbr : total ≤ w + min BLOCKSIZE (total - w)
      · rw [if_pos hbr]
        simp [readBytes_length]
      · rw [if_neg hbr]
        simp only [List.length_append, readBytes_length]
        rw [ih (w + min BLOCKSIZE (total - w))]
        omega

/-- The inner loop of `copy_out` over one allocation list equals the
flattened loop over that list's nonzero entries. -/
theorem copyOutExtent_flat (disk : Nat → Nat) (total : Nat) :
    ∀ (bl : List Nat) (w : Nat),
      (copyOutExtent disk total w bl).1 =
        copyOutFlat disk total w (bl.filter (fun b => b ≠ 0)) := by
  intro bl
  induction bl with
  | nil => intro w; simp [copyOutExtent, copyOutFlat]
  | cons b rest ih =>
    intro w
    simp only [copyOutExtent]
    by_cases hb : b = 0
    · rw [if_pos hb]
      have hf : (b :: rest).filter (fun b => b ≠ 0) =
          rest.filter (fun b => b ≠ 0) := by simp [hb]
      rw [hf]
      exact ih w
    · rw [if_neg hb]
      have hf : (b :: rest).filter (fun b => b ≠ 0) =
          b :: rest.filter (fun b => b ≠ 0) := by simp [hb]
      rw [hf]
      simp only [copyOutFlat]
      by_cases hbr : total ≤ w + min BLOCKSIZE (total - w)
      · rw [if_pos hbr, if_pos hbr]
      · rw [if_neg hbr, if_neg hbr, ih]

/-- Splitting the flattened loop at a list split: the second part only
runs if the first did not hit the end-of-file break. -/
theorem copyOutFlat_append (disk : Nat → Nat) (total : Nat) :
    ∀ (xs ys : List Nat) (w : Nat),
      copyOutFlat disk total w (xs ++ ys) =
        copyOutFlat disk total w xs ++
          (if total ≤ w + (copyOutFlat disk total w xs).length then []
            else copyOutFlat disk total
              (w + (copyOutFlat disk total w xs).length) ys) := by
  intro xs
  induction xs with
  | nil =>
    intro ys w
    simp only [List.nil_append, copyOutFlat, List.length_nil, Nat.add_zero]
    by_cases hw : total ≤ w
    · rw [if_pos hw]
      cases ys with
      | nil => rfl
      | cons b r =>
        simp only [copyOutFlat]
        rw [show total - w = 0 from by omega, Nat.min_zero, Nat.add_zero,
          if_pos hw]
        rfl
    · rw [if_neg hw]
  | cons b xs' ih =>
    intro ys w
    simp only [List.cons_append, copyOutFlat, List.append_eq]
    by_cases hbr : total ≤ w + min BLOCKSIZE (total - w)
    · rw [if_pos hbr, if_pos hbr]
      rw [readBytes_length, if_pos hbr, List.append_nil]
    · rw [if_neg hbr, if_neg hbr, ih ys (w + min BLOCKSIZE (total - w))]
      simp only [List.length_append, readBytes_length, List.append_assoc,
        Nat.add_assoc]

/-- The two nested read loops of `copy_out` equal the flattened loop
over the file's nonzero blocks in extent order. -/
theorem copyOutGo_flat (disk : Nat → Nat) (total : Nat) :
    ∀ (exts : List DirEntry) (w : Nat),
      (copyOutGo disk total w exts).1 =
        copyOutFlat disk total w
          ((exts.flatMap DirEntry.allocation).filter (fun b => b ≠ 0)) := by
  intro exts
  induction exts with
  | nil => intro w; simp [copyOutGo, copyOutFlat]
  | cons e rest ih =>
    intro w
    simp only [copyOutGo, List.flatMap_cons, List.filter_append]
    rw [copyOutFlat_append, ← copyOutExtent_flat]
    have hsnd := copyOutExtent_snd disk total e.allocation w
    by_cases hc : total ≤ (copyOutExtent disk total w e.allocation).2
    · rw [if_pos hc, if_pos (by omega), List.append_nil]
    · rw [if_neg hc, if_neg (by omega), ih]
      have hw2 : w + (copyOutExtent disk total w e.allocation).1.length =
          (copyOutExtent disk total w e.allocation).2 := hsnd.symm
      rw [hw2]

/-- The flattened loop reads exactly as claim C6 describes: full
blocks until the final one, which is cut at end-of-file. -/
theorem copyOutFlat_spec (disk : Nat → Nat) (total : Nat) :
    ∀ (bs : List Nat) (w : Nat),
      copyOutFlat disk total w bs = specCopyOutReads disk total w bs := by
  intro bs
  induction bs with
  | nil => intro w; rfl
  | cons b rest ih =>
    intro w
    simp only [copyOutFlat, specCopyOutReads]
    by_cases h1 : total ≤ w
    · rw [if_pos h1, show total - w = 0 from by omega, Nat.min_zero,
        Nat.add_zero, if_pos h1]
      rfl
    · rw [if_neg h1]
      by_cases h2 : total - w ≤ BLOCKSIZE
      · rw [Nat.min_eq_right h2, if_pos (by omega), if_pos h2]
      · rw [Nat.min_eq_left (by omega), if_neg (by omega), if_neg h2, ih]

/-- Output size of the flattened loop: everything that remains, capped
by the available blocks. -/
theorem copyOutFlat_length (disk : Nat → Nat) (total : Nat) :
    ∀ (bs : List Nat) (w : Nat),
      (copyOutFlat disk total w bs).length =
        min (total - w) (BLOCKSIZE * bs.length) := by
  have hbs : BLOCKSIZE = 2048 := rfl
  intro bs
  induction bs with
  | nil => intro w; simp [copyOutFlat]
  | cons b rest ih =>
    intro w
    simp only [copyOutFlat, List.length_cons]
    by_cases hbr : total ≤ w + min BLOCKSIZE (total - w)
    · rw [if_pos hbr, readBytes_length]
      rw [hbs] at hbr ⊢
      omega
    · rw [if_neg hbr]
      simp only [List.length_append, readBytes_length, ih]
      rw [hbs] at hbr ⊢
      omega

/-! #### Merge: canonical characterization of the grouping fold -/

theorem fileKey_fileOf (l : List DirEntry) (k : Nat × List Nat × List Nat) :
    fileKey (fileOf l k) = k := rfl

theorem fileKey_sortExtents (f : FileEntry) : fileKey (sortExtents f) = fileKey f := rfl

theorem fileKey_updateFileEntry (f : FileEntry) (e : DirEntry) :
    fileKey (updateFileEntry f e) = fileKey f := rfl

theorem firstKeys_append_singleton (q : List DirEntry) (e : DirEntry) :
    firstKeys (q ++ [e]) =
      if dirKey e ∈ firstKeys q then firstKeys q else firstKeys q ++ [dirKey e] := by
  unfold firstKeys
  rw [List.foldl_append]
  rfl

theorem mem_foldl_firstKeys (k : Nat × List Nat × List Nat) :
    ∀ (q : List DirEntry) (ks : List (Nat × List Nat × List Nat)),
      k ∈ q.foldl (fun ks e => if dirKey e ∈ ks then ks else ks ++ [dirKey e]) ks ↔
        k ∈ ks ∨ k ∈ q.map dirKey := by
  intro q
  induction q with
  | nil => intro ks; simp
  | cons e t ih =>
    intro ks
    rw [List.foldl_cons, ih]
    by_cases hmem : dirKey e ∈ ks
    · rw [if_pos hmem]
      simp only [List.map_cons, List.mem_cons]
      constructor
      · rintro (h | h)
        · exact Or.inl h
        · exact Or.inr (Or.inr h)
      · rintro (h | h | h)
        · exact Or.inl h
        · exact Or.inl (h ▸ hmem)
        · exact Or.inr h
    · rw [if_neg hmem]
      simp only [List.mem_append, List.mem_singleton, List.map_cons, List.mem_cons]
      tauto

theorem mem_firstKeys (k : Nat × List Nat × List Nat) (q : List DirEntry) :
    k ∈ firstKeys q ↔ k ∈ q.map dirKey := by
  unfold firstKeys
  rw [mem_foldl_firstKeys]
  simp

theorem firstKeys_nodup (q : List DirEntry) : (firstKeys q).Nodup := by
  have key : ∀ (q : List DirEntry) (ks : List (Nat × List Nat × List Nat)),
      ks.Nodup →
      (q.foldl (fun ks e => if dirKey e ∈ ks then ks else ks ++ [dirKey e]) ks).Nodup := by
    intro q
    induction q with
    | nil => intro ks h; exact h
    | cons e t ih =>
      intro ks h
      rw [List.foldl_cons]
      by_cases hmem : dirKey e ∈ ks
      · rw [if_pos hmem]
        exact ih ks h
      · rw [if_neg hmem]
        refine ih _ ?_
        simp [List.nodup_append, h, hmem]
  exact key q [] List.nodup_nil

theorem mem_groupFor (e : DirEntry) (l : List DirEntry) (k : Nat × List Nat × List Nat) :
    e ∈ groupFor l k ↔ e ∈ l ∧ dirKey e = k := by
  simp [groupFor, List.mem_filter]

theorem groupFor_append_singleton (q : List DirEntry) (e : DirEntry)
    (k : Nat × List Nat × List Nat) :
    groupFor (q ++ [e]) k =
      groupFor q k ++ (if dirKey e = k then [e] else []) := by
  unfold groupFor
  rw [List.filter_append]
  congr 1
  by_cases h : dirKey e = k
  · rw [if_pos h]
    simp [h]
  · rw [if_neg h]
    simp [h]

theorem groupFor_eq_nil_of_not_mem (l : List DirEntry) (k : Nat × List Nat × List Nat)
    (h : k ∉ l.map dirKey) : groupFor l k = [] := by
  rw [groupFor, List.filter_eq_nil_iff]
  intro e he
  simp only [decide_eq_true_eq]
  intro hk
  exact h (hk ▸ List.mem_map_of_mem dirKey he)

/-! #### Merge: the running minimum -/

theorem foldlMin_le_init :
    ∀ (g : List DirEntry) (a : Nat),
      g.foldl (fun m e => min e.directory_entry_idx m) a ≤ a := by
  intro g
  induction g with
  | nil => intro a; exact Nat.le_refl a
  | cons e t ih =>
    intro a
    rw [List.foldl_cons]
    exact Nat.le_trans (ih _) (Nat.min_le_right _ _)

theorem foldlMin_le_mem :
    ∀ (g : List DirEntry) (a : Nat) (e : DirEntry), e ∈ g →
      g.foldl (fun m e => min e.directory_entry_idx m) a ≤ e.directory_entry_idx := by
  intro g
  induction g with
  | nil => intro a e he; cases he
  | cons x t ih =>
    intro a e he
    rw [List.foldl_cons]
    rcases List.mem_cons.mp he with rfl | ht
    · exact Nat.le_trans (foldlMin_le_init t _) (Nat.min_le_left _ _)
    · exact ih _ e ht

theorem foldlMin_eq_init_or_mem :
    ∀ (g : List DirEntry) (a : Nat),
      g.foldl (fun m e => min e.directory_entry_idx m) a = a ∨
        ∃ e ∈ g, g.foldl (fun m e => min e.directory_entry_idx m) a =
          e.directory_entry_idx := by
  intro g
  induction g with
  | nil => intro a; exact Or.inl rfl
  | cons x t ih =>
    intro a
    rw [List.foldl_cons]
    rcases ih (min x.directory_entry_idx a) with h | ⟨e, he, h⟩
    · rw [h]
      rcases Nat.le_total x.directory_entry_idx a with hle | hle
      · exact Or.inr ⟨x, List.mem_cons_self x t, Nat.min_eq_left hle⟩
      · exact Or.inl (Nat.min_eq_right hle)
    · exact Or.inr ⟨e, List.mem_cons_of_mem x he, h⟩

theorem minIdxOf_le (g : List DirEntry) (e : DirEntry) (he : e ∈ g) :
    minIdxOf g ≤ e.directory_entry_idx :=
  foldlMin_le_mem g _ e he

theorem minIdxOf_mem (g : List DirEntry) (hg : g ≠ []) :
    ∃ e ∈ g, minIdxOf g = e.directory_entry_idx := by
  cases g with
  | nil => exact absurd rfl hg
  | cons x t =>
    rcases foldlMin_eq_init_or_mem (x :: t)
        (((x :: t).map DirEntry.directory_entry_idx).headD 0) with h | h
    · exact ⟨x, List.mem_cons_self x t, h⟩
    · exact h

theorem minIdxOf_perm (g₁ g₂ : List DirEntry) (hp : g₁.Perm g₂) (hg : g₁ ≠ []) :
    minIdxOf g₁ = minIdxOf g₂ := by
  have hg₂ : g₂ ≠ [] := by
    intro h
    exact hg (List.Perm.eq_nil (h ▸ hp))
  obtain ⟨e₁, he₁, h₁⟩ := minIdxOf_mem g₁ hg
  obtain ⟨e₂, he₂, h₂⟩ := minIdxOf_mem g₂ hg₂
  apply Nat.le_antisymm
  · rw [h₂]
    exact minIdxOf_le g₁ e₂ (hp.symm.subset he₂)
  · rw [h₁]
    exact minIdxOf_le g₂ e₁ (hp.subset he₁)

/-! #### Merge: the flag folds -/

theorem orFold_eq_any (p : DirEntry → Bool) :
    ∀ (g : List DirEntry) (b : Bool),
      g.foldl (fun b e => b || p e) b = (b || g.any p) := by
  intro g
  induction g with
  | nil => intro b; simp
  | cons e t ih =>
    intro b
    rw [List.foldl_cons, ih, List.any_cons, Bool.or_assoc]

theorem any_of_perm (p : DirEntry → Bool) (g₁ g₂ : List DirEntry) (hp : g₁.Perm g₂) :
    g₁.any p = g₂.any p := by
  cases h2 : g₂.any p
  · cases h1 : g₁.any p
    · rfl
    · obtain ⟨e, he, hpe⟩ := List.any_eq_true.mp h1
      rw [List.any_eq_true.mpr ⟨e, hp.subset he, hpe⟩] at h2
      cases h2
  · obtain ⟨e, he, hpe⟩ := List.any_eq_true.mp h2
    exact List.any_eq_true.mpr ⟨e, hp.symm.subset he, hpe⟩

theorem minIdxOf_append_singleton (g : List DirEntry) (e : DirEntry) (hg : g ≠ []) :
    minIdxOf (g ++ [e]) = min e.directory_entry_idx (minIdxOf g) := by
  cases g with
  | nil => exact absurd rfl hg
  | cons x t =>
    unfold minIdxOf
    rw [List.foldl_append]
    rfl

theorem orFold_append_singleton (p : DirEntry → Bool) (g : List DirEntry) (e : DirEntry) :
    (g ++ [e]).foldl (fun b x => b || p x) false =
      (g.foldl (fun b x => b || p x) false || p e) := by
  rw [List.foldl_append]
  rfl

theorem fileOf_append_other (p : List DirEntry) (e : DirEntry)
    (k : Nat × List Nat × List Nat) (h : dirKey e ≠ k) :
    fileOf (p ++ [e]) k = fileOf p k := by
  unfold fileOf
  rw [groupFor_append_singleton, if_neg h, List.append_nil]

theorem fileOf_append_same (p : List DirEntry) (e : DirEntry)
    (hmem : dirKey e ∈ p.map dirKey) :
    fileOf (p ++ [e]) (dirKey e) = updateFileEntry (fileOf p (dirKey e)) e := by
  have hgrp : groupFor (p ++ [e]) (dirKey e) = groupFor p (dirKey e) ++ [e] := by
    rw [groupFor_append_singleton, if_pos rfl]
  have hne : groupFor p (dirKey e) ≠ [] := by
    obtain ⟨x, hx, hkx⟩ := List.mem_map.mp hmem
    intro hnil
    have : x ∈ groupFor p (dirKey e) := (mem_groupFor x p (dirKey e)).mpr ⟨hx, hkx⟩
    rw [hnil] at this
    cases this
  unfold fileOf updateFileEntry
  rw [hgrp, minIdxOf_append_singleton _ _ hne, orFold_append_singleton,
    orFold_append_singleton]

theorem fileOf_append_new (p : List DirEntry) (e : DirEntry)
    (hnot : dirKey e ∉ p.map dirKey) :
    fileOf (p ++ [e]) (dirKey e) = updateFileEntry (newFileEntry e) e := by
  have hgrp : groupFor (p ++ [e]) (dirKey e) = [e] := by
    rw [groupFor_append_singleton, if_pos rfl, groupFor_eq_nil_of_not_mem p _ hnot,
      List.nil_append]
  unfold fileOf updateFileEntry newFileEntry
  rw [hgrp]
  rfl

theorem insertEntry_map_fileOf (p : List DirEntry) (e : DirEntry) :
    ∀ ks : List (Nat × List Nat × List Nat), ks.Nodup →
      (∀ k ∈ ks, k ∈ p.map dirKey) →
      (dirKey e ∉ ks → dirKey e ∉ p.map dirKey) →
      insertEntry (ks.map (fileOf p)) e =
        (if dirKey e ∈ ks then ks else ks ++ [dirKey e]).map (fileOf (p ++ [e])) := by
  intro ks
  induction ks with
  | nil =>
    rintro - - h₂
    rw [if_neg (List.not_mem_nil _), List.nil_append, List.map_nil, List.map_cons,
      List.map_nil]
    show [updateFileEntry (newFileEntry e) e] = [fileOf (p ++ [e]) (dirKey e)]
    rw [fileOf_append_new p e (h₂ (List.not_mem_nil _))]
  | cons k₀ ks' ih =>
    intro hnd h₁ h₂
    rw [List.map_cons]
    show (if fileKey (fileOf p k₀) = dirKey e
        then updateFileEntry (fileOf p k₀) e :: ks'.map (fileOf p)
        else fileOf p k₀ :: insertEntry (ks'.map (fileOf p)) e) = _
    rw [fileKey_fileOf]
    by_cases hk : k₀ = dirKey e
    · subst hk
      rw [if_pos rfl, if_pos (List.mem_cons_self _ ks'), List.map_cons]
      have htail : ks'.map (fileOf p) = ks'.map (fileOf (p ++ [e])) := by
        apply List.map_congr_left
        intro k hk'
        have hne : dirKey e ≠ k := by
          intro hek
          exact (List.nodup_cons.mp hnd).1 (hek ▸ hk')
        exact (fileOf_append_other p e k hne).symm
      rw [fileOf_append_same p e (h₁ _ (List.mem_cons_self _ ks')), htail]
    · have hke : dirKey e ≠ k₀ := fun h => hk h.symm
      rw [if_neg hk]
      have h₂' : dirKey e ∉ ks' → dirKey e ∉ p.map dirKey := by
        intro hn
        apply h₂
        intro hmem
        rcases List.mem_cons.mp hmem with h | h
        · exact hke h
        · exact hn h
      rw [ih (List.nodup_cons.mp hnd).2
        (fun k hk' => h₁ k (List.mem_cons_of_mem _ hk')) h₂']
      by_cases hmem : dirKey e ∈ ks'
      · rw [if_pos hmem, if_pos (List.mem_cons_of_mem _ hmem), List.map_cons,
          fileOf_append_other p e k₀ hke]
      · rw [if_neg hmem, if_neg (by
            intro hmm
            rcases List.mem_cons.mp hmm with h | h
            · exact hke h
            · exact hmem h),
          List.cons_append, List.map_cons, fileOf_append_other p e k₀ hke]

/-- The grouping fold of `merge_extents`, characterized: starting from
the files of an already-processed prefix `p`, folding the remaining
entries yields one file per distinct key in first-seen order, each
built from its key's group. -/
theorem mergeGroups_canonical :
    ∀ (l p : List DirEntry),
      List.foldl insertEntry ((firstKeys p).map (fileOf p)) l =
        (firstKeys (p ++ l)).map (fileOf (p ++ l)) := by
  intro l
  induction l with
  | nil => intro p; rw [List.append_nil]; rfl
  | cons e t ih =>
    intro p
    rw [List.foldl_cons]
    have hins := insertEntry_map_fileOf p e (firstKeys p) (firstKeys_nodup p)
      (fun k hk => (mem_firstKeys k p).mp hk)
      (fun hnot hmem => hnot ((mem_firstKeys _ p).mpr hmem))
    rw [hins, ← firstKeys_append_singleton, List.append_cons p e t]
    exact ih (p ++ [e])

/-- `merge_extents`'s grouping stage in closed form. -/
theorem mergeGroups_eq (l : List DirEntry) :
    mergeGroups l = (firstKeys l).map (fileOf l) := by
  have h := mergeGroups_canonical l []
  simpa [mergeGroups, firstKeys] using h

instance : IsTotal FileEntry leFirstIdx := ⟨fun a b => Nat.le_total _ _⟩

instance : IsTrans FileEntry leFirstIdx := ⟨fun a b c => Nat.le_trans⟩

instance : IsTotal DirEntry leEntryNumber := ⟨fun a b => Nat.le_total _ _⟩

instance : IsTrans DirEntry leEntryNumber := ⟨fun a b c => Nat.le_trans⟩

/-- Two permuted lists that are both sorted by a key taking no
duplicate values are equal. -/
theorem eq_of_perm_sorted_key {α : Type} (key : α → Nat) (l₁ l₂ : List α)
    (hp : l₁.Perm l₂)
    (hs₁ : l₁.Pairwise (fun a b => key a ≤ key b))
    (hs₂ : l₂.Pairwise (fun a b => key a ≤ key b))
    (hnd : (l₁.map key).Nodup) : l₁ = l₂ := by
  haveI : IsAntisymm α (fun a b => key a < key b) :=
    ⟨fun a b h1 h2 => absurd h1 (Nat.lt_asymm h2)⟩
  have hnd₂ : (l₂.map key).Nodup := ((hp.map key).nodup_iff).mp hnd
  have hlt₁ : l₁.Pairwise (fun a b => key a < key b) :=
    (hs₁.and (List.pairwise_map.mp hnd)).imp (fun h => Nat.lt_of_le_of_ne h.1 h.2)
  have hlt₂ : l₂.Pairwise (fun a b => key a < key b) :=
    (hs₂.and (List.pairwise_map.mp hnd₂)).imp (fun h => Nat.lt_of_le_of_ne h.1 h.2)
  exact List.eq_of_perm_of_sorted hp hlt₁ hlt₂

/-- For a key actually present in the catalog, the sorted-extents file
built for it depends only on the catalog's multiset (given distinct
sequence numbers within the key's group). -/
theorem sortExtents_fileOf_eq (l₁ l₂ : List DirEntry) (hperm : l₁.Perm l₂)
    (hen : l₁.Pairwise (fun a b => dirKey a = dirKey b → a.entry_number ≠ b.entry_number))
    (k : Nat × List Nat × List Nat) (hk : k ∈ l₁.map dirKey) :
    sortExtents (fileOf l₁ k) = sortExtents (fileOf l₂ k) := by
  have hgp : (groupFor l₁ k).Perm (groupFor l₂ k) := hperm.filter _
  have hne : groupFor l₁ k ≠ [] := by
    obtain ⟨x, hx, hkx⟩ := List.mem_map.mp hk
    intro hnil
    have hmem := (mem_groupFor x l₁ k).mpr ⟨hx, hkx⟩
    rw [hnil] at hmem
    cases hmem
  have hgnd : ((groupFor l₁ k).map DirEntry.entry_number).Nodup := by
    refine List.pairwise_map.mpr ?_
    have hpw : (groupFor l₁ k).Pairwise
        (fun a b => dirKey a = dirKey b → a.entry_number ≠ b.entry_number) :=
      hen.filter _
    refine hpw.imp_of_mem ?_
    intro a b ha hb h
    exact h (((mem_groupFor a l₁ k).mp ha).2.trans
      (((mem_groupFor b l₁ k).mp hb).2.symm))
  have hext : (groupFor l₁ k).insertionSort leEntryNumber =
      (groupFor l₂ k).insertionSort leEntryNumber := by
    refine eq_of_perm_sorted_key (fun e => e.entry_number) _ _ ?_ ?_ ?_ ?_
    · exact (List.perm_insertionSort _ _).trans
        (hgp.trans (List.perm_insertionSort _ _).symm)
    · exact List.sorted_insertionSort leEntryNumber (groupFor l₁ k)
    · exact List.sorted_insertionSort leEntryNumber (groupFor l₂ k)
    · exact (((List.perm_insertionSort leEntryNumber (groupFor l₁ k)).map
        (fun e => e.entry_number)).nodup_iff).mpr hgnd
  have hro : (groupFor l₁ k).foldl (fun b e => b || e.readonly) false =
      (groupFor l₂ k).foldl (fun b e => b || e.readonly) false := by
    rw [orFold_eq_any, orFold_eq_any, any_of_perm _ _ _ hgp]
  have hsys : (groupFor l₁ k).foldl (fun b e => b || e.system) false =
      (groupFor l₂ k).foldl (fun b e => b || e.system) false := by
    rw [orFold_eq_any, orFold_eq_any, any_of_perm _ _ _ hgp]
  have hmin := minIdxOf_perm _ _ hgp hne
  simp only [sortExtents, fileOf]
  rw [hext, hro, hsys, hmin]

/-- Every file produced by `merge_extents` is the sorted-extents file
of one first-seen key. -/
theorem merge_file_mem (l : List DirEntry) (f : FileEntry) (hf : f ∈ merge_extents l) :
    ∃ k ∈ firstKeys l, f = sortExtents (fileOf l k) := by
  unfold merge_extents sortFileList at hf
  rw [mergeGroups_eq] at hf
  obtain ⟨g, hg, rfl⟩ := List.mem_map.mp hf
  have hg' : g ∈ (firstKeys l).map (fileOf l) :=
    (List.perm_insertionSort leFirstIdx _).subset hg
  obtain ⟨k, hk, rfl⟩ := List.mem_map.mp hg'
  exact ⟨k, hk, rfl⟩

/-- The per-file shape of `merge_extents`'s output: extents sorted by
global sequence number, all of the file's key, slot-index minimum
recorded, flags OR-ed. -/
theorem merge_file_props (l : List DirEntry) (f : FileEntry) (hf : f ∈ merge_extents l) :
    f.extents.Sorted leEntryNumber ∧
      (∀ e ∈ f.extents, dirKey e = fileKey f) ∧
      (∀ e ∈ f.extents, f.first_directory_entry_idx ≤ e.directory_entry_idx) ∧
      (∃ e ∈ f.extents, f.first_directory_entry_idx = e.directory_entry_idx) ∧
      f.readonly = f.extents.any DirEntry.readonly ∧
      f.system = f.extents.any DirEntry.system := by
  obtain ⟨k, hkK, rfl⟩ := merge_file_mem l f hf
  have hkm : k ∈ l.map dirKey := (mem_firstKeys k l).mp hkK
  have hne : groupFor l k ≠ [] := by
    obtain ⟨x, hx, hkx⟩ := List.mem_map.mp hkm
    intro hnil
    have hmem := (mem_groupFor x l k).mpr ⟨hx, hkx⟩
    rw [hnil] at hmem
    cases hmem
  have hperm : ((groupFor l k).insertionSort leEntryNumber).Perm (groupFor l k) :=
    List.perm_insertionSort _ _
  refine ⟨List.sorted_insertionSort leEntryNumber (groupFor l k), ?_, ?_, ?_, ?_, ?_⟩
  · intro e he
    have hg := hperm.subset he
    rw [fileKey_sortExtents, fileKey_fileOf]
    exact ((mem_groupFor e l k).mp hg).2
  · intro e he
    exact minIdxOf_le _ e (hperm.subset he)
  · obtain ⟨e, he, hmin⟩ := minIdxOf_mem _ hne
    exact ⟨e, hperm.symm.subset he, hmin⟩
  · show (groupFor l k).foldl (fun b e => b || e.readonly) false = _
    rw [orFold_eq_any, any_of_perm _ _ _ hperm.symm, Bool.false_or]
    rfl
  · show (groupFor l k).foldl (fun b e => b || e.system) false = _
    rw [orFold_eq_any, any_of_perm _ _ _ hperm.symm, Bool.false_or]
    rfl

/-- `merge_extents` output is sorted by first directory-slot index. -/
theorem merge_extents_sorted (l : List DirEntry) :
    (merge_extents l).Sorted leFirstIdx := by
  unfold merge_extents sortFileList
  exact List.pairwise_map.mpr (List.sorted_insertionSort leFirstIdx (mergeGroups l))

/-- `merge_extents` depends only on the multiset of directory entries,
given distinct slot indices and per-file distinct sequence numbers. -/
theorem merge_extents_eq_of_perm (l₁ l₂ : List DirEntry) (hperm : l₁.Perm l₂)
    (hidx : l₁.Pairwise (fun a b => a.directory_entry_idx ≠ b.directory_entry_idx))
    (hen : l₁.Pairwise (fun a b => dirKey a = dirKey b → a.entry_number ≠ b.entry_number)) :
    merge_extents l₁ = merge_extents l₂ := by
  have hkeys : (firstKeys l₁).Perm (firstKeys l₂) := by
    refine (List.perm_ext_iff_of_nodup (firstKeys_nodup l₁) (firstKeys_nodup l₂)).mpr ?_
    intro k
    rw [mem_firstKeys, mem_firstKeys]
    exact (hperm.map dirKey).mem_iff
  have hpt : ∀ k ∈ firstKeys l₁,
      sortExtents (fileOf l₁ k) = sortExtents (fileOf l₂ k) := by
    intro k hk
    exact sortExtents_fileOf_eq l₁ l₂ hperm hen k ((mem_firstKeys k l₁).mp hk)
  have hm1 : (merge_extents l₁).Perm ((firstKeys l₁).map (fun k => sortExtents (fileOf l₁ k))) := by
    unfold merge_extents sortFileList
    rw [mergeGroups_eq]
    have heq : List.map sortExtents (List.map (fileOf l₁) (firstKeys l₁)) =
        (firstKeys l₁).map (fun k => sortExtents (fileOf l₁ k)) := by
      rw [List.map_map]
      rfl
    rw [← heq]
    exact (List.perm_insertionSort leFirstIdx _).map sortExtents
  have hm2 : (merge_extents l₂).Perm ((firstKeys l₂).map (fun k => sortExtents (fileOf l₂ k))) := by
    unfold merge_extents sortFileList
    rw [mergeGroups_eq]
    have heq : List.map sortExtents (List.map (fileOf l₂) (firstKeys l₂)) =
        (firstKeys l₂).map (fun k => sortExtents (fileOf l₂ k)) := by
      rw [List.map_map]
      rfl
    rw [← heq]
    exact (List.perm_insertionSort leFirstIdx _).map sortExtents
  have hmid : ((firstKeys l₁).map (fun k => sortExtents (fileOf l₁ k))).Perm
      ((firstKeys l₂).map (fun k => sortExtents (fileOf l₂ k))) := by
    rw [List.map_congr_left hpt]
    exact hkeys.map _
  have hp : (merge_extents l₁).Perm (merge_extents l₂) :=
    (hm1.trans hmid).trans hm2.symm
  have hnd : ((merge_extents l₁).map
      (fun f => f.first_directory_entry_idx)).Nodup := by
    have hK : ((firstKeys l₁).map
        (fun k => minIdxOf (groupFor l₁ k))).Nodup := by
      refine List.pairwise_map.mpr ?_
      refine (List.Pairwise.imp_of_mem ?_
        (firstKeys_nodup l₁ : (firstKeys l₁).Pairwise (fun a b => a ≠ b)))
      intro k k' hk hk' hkk
      have hnek : groupFor l₁ k ≠ [] := by
        obtain ⟨x, hx, hkx⟩ := List.mem_map.mp ((mem_firstKeys k l₁).mp hk)
        intro hnil
        have hmem := (mem_groupFor x l₁ k).mpr ⟨hx, hkx⟩
        rw [hnil] at hmem
        cases hmem
      have hnek' : groupFor l₁ k' ≠ [] := by
        obtain ⟨x, hx, hkx⟩ := List.mem_map.mp ((mem_firstKeys k' l₁).mp hk')
        intro hnil
        have hmem := (mem_groupFor x l₁ k').mpr ⟨hx, hkx⟩
        rw [hnil] at hmem
        cases hmem
      obtain ⟨e, he, hme⟩ := minIdxOf_mem _ hnek
      obtain ⟨e', he', hme'⟩ := minIdxOf_mem _ hnek'
      obtain ⟨hel, hke⟩ := (mem_groupFor e l₁ k).mp he
      obtain ⟨hel', hke'⟩ := (mem_groupFor e' l₁ k').mp he'
      have hee : e ≠ e' := by
        intro heq
        exact hkk (hke.symm.trans (heq ▸ hke'))
      have hidx_ne := hidx.forall (fun a b h => Ne.symm h) hel hel' hee
      rw [hme, hme']
      exact hidx_ne
    have hchain : ((merge_extents l₁).map (fun f => f.first_directory_entry_idx)).Perm
        ((firstKeys l₁).map (fun k => minIdxOf (groupFor l₁ k))) := by
      have h1 := hm1.map (fun f => f.first_directory_entry_idx)
      rw [List.map_map] at h1
      exact h1
    exact hchain.nodup_iff.mpr hK
  have hs₁ : (merge_extents l₁).Pairwise
      (fun a b => a.first_directory_entry_idx ≤ b.first_directory_entry_idx) :=
    merge_extents_sorted l₁
  have hs₂ : (merge_extents l₂).Pairwise
      (fun a b => a.first_directory_entry_idx ≤ b.first_directory_entry_idx) :=
    merge_extents_sorted l₂
  exact @eq_of_perm_sorted_key FileEntry (fun f => f.first_directory_entry_idx)
    (merge_extents l₁) (merge_extents l₂) hp hs₁ hs₂ hnd

/-- Distributing one appended entry into the flatMap over its (unique)
key among distinct keys moves it to the end, up to permutation. -/
theorem flatMap_if_append_perm (g : (Nat × List Nat × List Nat) → List DirEntry)
    (e : DirEntry) :
    ∀ ks : List (Nat × List Nat × List Nat), ks.Nodup → dirKey e ∈ ks →
      (ks.flatMap (fun k => g k ++ (if dirKey e = k then [e] else []))).Perm
        (ks.flatMap g ++ [e]) := by
  intro ks
  induction ks with
  | nil => intro _ h; cases h
  | cons k t ih =>
    intro hnd hk
    rw [List.flatMap_cons, List.flatMap_cons]
    by_cases h : dirKey e = k
    · rw [if_pos h]
      have hnotin : dirKey e ∉ t := by
        rw [h]
        exact (List.nodup_cons.mp hnd).1
      have hrest : (t.flatMap (fun k => g k ++ (if dirKey e = k then [e] else []))).Perm
          (t.flatMap g) := by
        refine List.Perm.flatMap_left t ?_
        intro k' hk'
        rw [if_neg (fun hh => hnotin (by rw [hh]; exact hk')), List.append_nil]
      refine (hrest.append_left (g k ++ [e])).trans ?_
      rw [List.append_assoc, List.append_assoc]
      exact List.perm_append_comm.append_left (g k)
    · rw [if_neg h, List.append_nil]
      have hk' : dirKey e ∈ t := by
        rcases List.mem_cons.mp hk with h1 | h1
        · exact absurd h1 h
        · exact h1
      have hih := ih (List.nodup_cons.mp hnd).2 hk'
      refine (hih.append_left (g k)).trans ?_
      rw [← List.append_assoc]

/-- The first-seen key groups partition the catalog: concatenating the
groups in key order is a permutation of the catalog. -/
theorem flatMap_groupFor_perm (l : List DirEntry) :
    ((firstKeys l).flatMap (fun k => groupFor l k)).Perm l := by
  induction l using List.reverseRecOn with
  | nil => exact List.Perm.nil
  | append_singleton q e ih =>
    have hg : ∀ k, groupFor (q ++ [e]) k = groupFor q k ++ (if dirKey e = k then [e] else []) :=
      fun k => groupFor_append_singleton q e k
    rw [firstKeys_append_singleton]
    by_cases hmem : dirKey e ∈ firstKeys q
    · rw [if_pos hmem]
      have heq : (firstKeys q).flatMap (fun k => groupFor (q ++ [e]) k) =
          (firstKeys q).flatMap (fun k => groupFor q k ++ (if dirKey e = k then [e] else [])) := by
        simp only [hg]
      rw [heq]
      exact (flatMap_if_append_perm (fun k => groupFor q k) e (firstKeys q)
        (firstKeys_nodup q) hmem).trans (ih.append_right [e])
    · rw [if_neg hmem, List.flatMap_append]
      have hnotmap : dirKey e ∉ q.map dirKey := fun hc => hmem ((mem_firstKeys _ q).mpr hc)
      have hnil : groupFor q (dirKey e) = [] := groupFor_eq_nil_of_not_mem q _ hnotmap
      have hsingle : ([dirKey e] : List (Nat × List Nat × List Nat)).flatMap
          (fun k => groupFor (q ++ [e]) k) = [e] := by
        rw [List.flatMap_singleton, hg, hnil, if_pos rfl, List.nil_append]
      rw [hsingle]
      have hfirst : ((firstKeys q).flatMap (fun k => groupFor (q ++ [e]) k)).Perm
          ((firstKeys q).flatMap (fun k => groupFor q k)) := by
        refine List.Perm.flatMap_left _ ?_
        intro k hk
        rw [hg k, if_neg (fun hh => hmem (by rw [hh]; exact hk)), List.append_nil]
      exact (hfirst.append_right [e]).trans (ih.append_right [e])

/-- `merge_extents` is, up to output order, the canonical per-key file
list. -/
theorem merge_extents_perm_canonical (l : List DirEntry) :
    (merge_extents l).Perm ((firstKeys l).map (fun k => sortExtents (fileOf l k))) := by
  unfold merge_extents sortFileList
  rw [mergeGroups_eq]
  have heq : List.map sortExtents (List.map (fileOf l) (firstKeys l)) =
      (firstKeys l).map (fun k => sortExtents (fileOf l k)) := by
    rw [List.map_map]
    rfl
  rw [← heq]
  exact (List.perm_insertionSort leFirstIdx _).map sortExtents

/-! ### Claim theorems -/

/-- C8: creating a 320K image yields exactly `320*1024` bytes, every
byte `0xE5` except the media descriptor `0x01` at offset `0x1FF`
(bytes beyond the image read as the `getD` default 0). -/
theorem claim_C8_create_image_320K :
    (create_image DiskSize.K320).length = 320 * 1024 ∧
      ∀ i : Nat, (create_image DiskSize.K320).getD i 0 =
        if i = 0x1ff then 0x01 else if i < 320 * 1024 then 0xe5 else 0 := by
  have key : create_image DiskSize.K320 =
      (List.replicate 327680 (0xe5 : Nat)).set 0x1ff 0x01 := by
    show (List.replicate (320 * 1024 / NUM_BYTES_PER_SECTOR / NUM_SECTORS_PER_TRACK *
        NUM_SECTORS_PER_TRACK) (List.replicate NUM_BYTES_PER_SECTOR 0xe5)).flatten.set
        DISKSIZE_OFFSET (DiskSize.hex_value .K320) =
      (List.replicate 327680 (0xe5 : Nat)).set 0x1ff 0x01
    rw [flatten_replicate_replicate]
    norm_num [NUM_BYTES_PER_SECTOR, NUM_SECTORS_PER_TRACK, DISKSIZE_OFFSET,
      DiskSize.hex_value]
  constructor
  · rw [key, List.length_set, List.length_replicate]
  · intro i
    rw [key, List.getD_eq_getElem?_getD, List.getElem?_set, List.length_replicate,
      List.getElem?_replicate]
    by_cases h1 : i = 0x1ff
    · subst h1; norm_num
    · have h1' : ¬ (0x1ff = i) := fun h => h1 h.symm
      rw [if_neg h1', if_neg h1]
      by_cases h2 : i < 327680
      · rw [if_pos h2, if_pos h2]; rfl
      · rw [if_neg h2, if_neg h2]; rfl

/-- C2 counterexample: at block number `0x9e` the code's translation
gives `651264`, while the claim's formula (threshold `0x9e` used as
the subtrahend) gives `655360`; they differ. -/
theorem claim_C2_counterexample :
    allocation_to_offset 0x9e = 651264 ∧ specOffsetFormula 0x9e = 655360 ∧
      allocation_to_offset 0x9e ≠ specOffsetFormula 0x9e := by decide

set_option maxRecDepth 40000 in
/-- C2 amended: over the valid block-number range the translation
equals the claimed formula with the side-1 subtrahend corrected to
`threshold - 1 = 0x9d`; the function is total there (the `usize`
subtraction cannot underflow, and every block's `BLOCKSIZE` bytes lie
inside the image). -/
theorem claim_C2_amended_offset (b : Nat) (hb : b < MAX_NUM_BLOCKS) :
    allocation_to_offset b = amendedOffsetFormula b ∧
      (2 * (b / 2) - 0x9d) * BLOCKSIZE * NUM_SIDES ≤ TOTAL_DISKSIZE ∧
      allocation_to_offset b + BLOCKSIZE ≤ TOTAL_DISKSIZE := by
  revert hb; revert b; decide

theorem claim_C2_amended_offset_witness :
    (0x9e < MAX_NUM_BLOCKS) ∧
      (allocation_to_offset 0x9e = amendedOffsetFormula 0x9e ∧
        (2 * (0x9e / 2) - 0x9d) * BLOCKSIZE * NUM_SIDES ≤ TOTAL_DISKSIZE ∧
        allocation_to_offset 0x9e + BLOCKSIZE ≤ TOTAL_DISKSIZE) :=
  ⟨by decide, claim_C2_amended_offset 0x9e (by decide)⟩

set_option maxRecDepth 8000 in
/-- C1: the promised free-block check does not exist.  On an image
whose catalog (`fullImageFiles`) occupies every allocatable data block
— zero free blocks — while 127 directory slots are free, copying in
the one-byte file `0:A.B` (which needs one data block) does not fail
with an insufficient-space error: it returns success, performs exactly
one write (the new directory entry at slot 1, catalog offset `0x2020`,
with an empty allocation list), and silently discards the file's data
byte. -/
theorem claim_C1_copy_in_no_free_block_check :
    (freeIndices (usedBlocks fullImageFiles)).length = 0 ∧
      (chunksBlocks [7]).length = 1 ∧
      copy_in fullImageFiles cpmNameA [7] =
        .ok [(8224, [0, 65, 66, 0, 0, 0, 1] ++ List.replicate 25 0)] := by
  have hub := usedBlocks_fullImageFiles
  have hc : chunksBlocks [7] = [[7]] := by
    rw [chunksBlocks]
    norm_num [BLOCKSIZE]
    rw [chunksBlocks]
    simp
  refine ⟨by rw [hub]; decide, by rw [hc]; rfl, ?_⟩
  unfold copy_in
  rw [hub, hc]
  rfl

/-- C3 counterexample: decoding a record whose sixteen AL bytes are
all nonzero (`sampleRecord16`) yields 8 allocation block numbers, not
16: the slots are two-byte little-endian words, so a 32-byte record
carries 8 of them. -/
theorem claim_C3_counterexample :
    ((decodeDirEntry sampleRecord16 0).map (fun e => e.allocation.length)) = some 8 ∧
      ((decodeDirEntry sampleRecord16 0).map (fun e => e.allocation.length)) ≠
        some 16 := by
  refine ⟨rfl, fun h => absurd (Option.some.inj h) (by decide)⟩

/-- C3 amended: a 32-byte directory record carries 8 two-byte
little-endian block-pointer slots — decoding a non-empty record
extracts the 8 values `entry[17+2k] <<< 8 ||| entry[16+2k]`
(`k < 8`), omits the zero ones, and so never yields more than 8
block numbers — and the entry-building loop of `copy_in` creates
`ceil(blocks_needed / 8)` directory entries, with
`blocks_needed = ceil(len / BLOCKSIZE)`. -/
theorem claim_C3_amended_eight_slots (entry : List Nat) (idx : Nat)
    (hlen : entry.length = 32) (hu : entry.getD 0 0 ≠ 0xE5)
    (user : Nat) (fn ft fe fb file_data : List Nat) :
    (∃ d, decodeDirEntry entry idx = some d ∧
        d.allocation =
          ((List.range 8).map (fun k =>
              (entry.getD (17 + 2 * k) 0 <<< 8) ||| entry.getD (16 + 2 * k) 0)).filter
            (fun b => b ≠ 0) ∧
        d.allocation.length ≤ 8) ∧
      (mkEntriesGo user fn ft fe 0 (((chunksBlocks file_data).length + 7) / 8)
          (chunksBlocks file_data).length fb
          ((file_data.length + 127) / 128 * 128)).length =
        ((file_data.length + BLOCKSIZE - 1) / BLOCKSIZE + 7) / 8 := by
  constructor
  · have hal : lePairs ((entry.drop 16).take 16) =
        (List.range 8).map (fun k =>
          (entry.getD (17 + 2 * k) 0 <<< 8) ||| entry.getD (16 + 2 * k) 0) := by
      rw [lePairs_eq_map_range 8 _ (by simp [hlen])]
      apply List.map_congr_left
      intro k hk
      have hk8 : k < 8 := List.mem_range.mp hk
      have eGet : ∀ j, j < 16 → ((entry.drop 16).take 16).getD j 0 =
          entry.getD (16 + j) 0 := by
        intro j hj
        rw [List.getD_eq_getElem?_getD, List.getElem?_take, if_pos hj,
          List.getElem?_drop, ← List.getD_eq_getElem?_getD]
      rw [eGet (2 * k + 1) (by omega), eGet (2 * k) (by omega)]
      have harith : 16 + (2 * k + 1) = 17 + 2 * k := by omega
      rw [harith]
    unfold decodeDirEntry
    rw [if_neg hu]
    refine ⟨_, rfl, ?_, ?_⟩
    · show (lePairs ((entry.drop 16).take 16)).filter (fun b => b ≠ 0) = _
      rw [hal]
    · show ((lePairs ((entry.drop 16).take 16)).filter (fun b => b ≠ 0)).length ≤ 8
      calc ((lePairs ((entry.drop 16).take 16)).filter (fun b => b ≠ 0)).length
          ≤ (lePairs ((entry.drop 16).take 16)).length := List.length_filter_le _ _
        _ = 8 := by rw [hal, List.length_map, List.length_range]
  · rw [mkEntriesGo_length, chunksBlocks_length]

theorem claim_C3_amended_eight_slots_witness :
    (∃ d, decodeDirEntry sampleRecord16 0 = some d ∧
        d.allocation =
          ((List.range 8).map (fun k =>
              (sampleRecord16.getD (17 + 2 * k) 0 <<< 8) |||
                sampleRecord16.getD (16 + 2 * k) 0)).filter (fun b => b ≠ 0) ∧
        d.allocation.length ≤ 8) ∧
      (mkEntriesGo 0 [] [] [] 0 (((chunksBlocks [7]).length + 7) / 8)
          (chunksBlocks [7]).length []
          ((([7] : List Nat).length + 127) / 128 * 128)).length =
        ((([7] : List Nat).length + BLOCKSIZE - 1) / BLOCKSIZE + 7) / 8 :=
  claim_C3_amended_eight_slots sampleRecord16 0 (by decide) (by decide) 0 [] [] [] [] [7]

/-- C4 counterexample: the directory record `1:ABCDEFGH.TXT` with the
readonly flag set is valid by the claim's wording, yet decoding its
encoding yields the record with readonly cleared — `write_to_file`
masks every filetype character with `0x7F` and never re-inserts the
flag bits, so the round-trip loses `readonly`/`system`. -/
theorem claim_C4_counterexample :
    (roundtripCounterEntry.encodeBytes.bind fun bytes =>
        decodeDirEntry bytes roundtripCounterEntry.directory_entry_idx) ≠
        some roundtripCounterEntry ∧
      (roundtripCounterEntry.encodeBytes.bind fun bytes =>
          decodeDirEntry bytes roundtripCounterEntry.directory_entry_idx) =
        some { roundtripCounterEntry with readonly := false } := by
  constructor
  · intro h
    have h2 : ({ roundtripCounterEntry with readonly := false } : DirEntry) =
        roundtripCounterEntry := Option.some.inj ((rfl : _ = some _).symm.trans h)
    exact absurd (congrArg DirEntry.readonly h2) (by decide)
  · rfl

/-- C4 amended: the round-trip `decode (encode e) = e` holds exactly
on the domain the encoder supports: filename of exactly 8 ASCII
non-whitespace characters, filetype of exactly 3 ASCII characters,
`readonly = system = false` (the encoder drops the flag bits), at most
8 nonzero 16-bit allocation words (the record has 8 two-byte slots),
a user number other than the `0xE5` sentinel, and the derived
`entry_number = 32*s2 + extent`.  Shorter names break the fixed byte
layout because the encoder does not pad them. -/
theorem claim_C4_amended_roundtrip (e : DirEntry)
    (hfn_len : e.filename.length = 8)
    (hfn_chars : ∀ c ∈ e.filename, c < 128 ∧ isWsChar c = false)
    (hft_len : e.filetype.length = 3)
    (hft_chars : ∀ c ∈ e.filetype, c < 128)
    (hro : e.readonly = false) (hsys : e.system = false)
    (huser : e.user_number ≠ 0xE5)
    (hal_len : e.allocation.length ≤ 8)
    (hal : ∀ al ∈ e.allocation, al ≠ 0 ∧ al < 65536)
    (hent : e.entry_number = 32 * e.s2 + e.extent) :
    ∃ bytes, e.encodeBytes = some bytes ∧ bytes.length = 32 ∧
      decodeDirEntry bytes e.directory_entry_idx = some e := by
  obtain ⟨didx, u, fn, ft, ext, s2v, s1v, rc, alloc, ro, sys, en⟩ := e
  simp only at hfn_len hfn_chars hft_len hft_chars hro hsys huser hal_len hal hent
  subst hro
  subst hsys
  subst hent
  match fn, hfn_len with
  | [a1, a2, a3, a4, a5, a6, a7, a8], _ =>
  match ft, hft_len with
  | [b1, b2, b3], _ =>
  have hfnm : [a1, a2, a3, a4, a5, a6, a7, a8].map (fun c => c % 128) =
      [a1, a2, a3, a4, a5, a6, a7, a8] := by
    calc [a1, a2, a3, a4, a5, a6, a7, a8].map (fun c => c % 128)
        = [a1, a2, a3, a4, a5, a6, a7, a8].map id :=
          List.map_congr_left (fun c hc => Nat.mod_eq_of_lt (hfn_chars c hc).1)
      _ = _ := List.map_id _
  have hftm : [b1, b2, b3].map (fun c => c % 128) = [b1, b2, b3] := by
    calc [b1, b2, b3].map (fun c => c % 128) = [b1, b2, b3].map id :=
          List.map_congr_left (fun c hc => Nat.mod_eq_of_lt (hft_chars c hc))
      _ = _ := List.map_id _
  have halb_len : (alloc.flatMap fun al => [al % 256, al >>> 8 % 256]).length =
      2 * alloc.length := length_leBytes alloc
  have hbuf_len : (u :: ([a1, a2, a3, a4, a5, a6, a7, a8].map (fun c => c % 128) ++
      [b1, b2, b3].map (fun c => c % 128) ++ [ext, s1v, s2v, rc] ++
      (alloc.flatMap fun al => [al % 256, al >>> 8 % 256]))).length =
      16 + 2 * alloc.length := by
    simp only [List.length_cons, List.length_append, List.length_map,
      List.length_nil, halb_len]
    omega
  have henc : DirEntry.encodeBytes
      ⟨didx, u, [a1, a2, a3, a4, a5, a6, a7, a8], [b1, b2, b3], ext, s2v, s1v, rc,
        alloc, false, false, 32 * s2v + ext⟩ =
      some ((u :: ([a1, a2, a3, a4, a5, a6, a7, a8] ++ [b1, b2, b3] ++
        [ext, s1v, s2v, rc] ++ (alloc.flatMap fun al => [al % 256, al >>> 8 % 256]))) ++
        List.replicate (16 - 2 * alloc.length) 0) := by
    simp only [DirEntry.encodeBytes]
    rw [if_neg (by rw [hbuf_len]; simp only [DIRENTRY_SIZE]; omega)]
    rw [hbuf_len, hfnm, hftm]
    have hcount : DIRENTRY_SIZE - (16 + 2 * alloc.length) = 16 - 2 * alloc.length := by
      simp only [DIRENTRY_SIZE]
      omega
    rw [hcount]
  refine ⟨_, henc, ?_, ?_⟩
  · rw [hfnm, hftm] at hbuf_len
    rw [List.length_append, hbuf_len, List.length_replicate]
    omega
  · have hB : (u :: ([a1, a2, a3, a4, a5, a6, a7, a8] ++ [b1, b2, b3] ++
        [ext, s1v, s2v, rc] ++ (alloc.flatMap fun al => [al % 256, al >>> 8 % 256]))) ++
        List.replicate (16 - 2 * alloc.length) 0 =
        u :: a1 :: a2 :: a3 :: a4 :: a5 :: a6 :: a7 :: a8 :: b1 :: b2 :: b3 ::
          ext :: s1v :: s2v :: rc ::
          ((alloc.flatMap fun al => [al % 256, al >>> 8 % 256]) ++
            List.replicate (16 - 2 * alloc.length) 0) := by
      simp [List.append_assoc]
    rw [hB]
    unfold decodeDirEntry
    simp only [List.getD_cons_zero]
    rw [if_neg huser]
    refine congrArg some ?_
    rw [DirEntry.mk.injEq]
    have htail16 : ((alloc.flatMap fun al => [al % 256, al >>> 8 % 256]) ++
        List.replicate (16 - 2 * alloc.length) 0).take 16 =
        (alloc.flatMap fun al => [al % 256, al >>> 8 % 256]) ++
          List.replicate (16 - 2 * alloc.length) 0 :=
      List.take_of_length_le (by
        simp only [List.length_append, List.length_replicate, halb_len]
        omega)
    have hpad2 : List.replicate (16 - 2 * alloc.length) 0 =
        List.replicate (2 * (8 - alloc.length)) 0 := by
      have : 16 - 2 * alloc.length = 2 * (8 - alloc.length) := by omega
      rw [this]
    have hmapid : alloc.map (fun al => ((al >>> 8 % 256) <<< 8) ||| (al % 256)) =
        alloc := by
      calc alloc.map (fun al => ((al >>> 8 % 256) <<< 8) ||| (al % 256))
          = alloc.map id :=
            List.map_congr_left (fun al hmem => le_bytes_roundtrip al (hal al hmem).2)
        _ = alloc := List.map_id alloc
    refine ⟨rfl, rfl, ?_, ?_, rfl, rfl, rfl, rfl, ?_, ?_, ?_, rfl⟩
    · -- filename round-trips: lossy-decode then trim is the identity here
      show trimChars ([a1, a2, a3, a4, a5, a6, a7, a8].map utf8LossyByte) = _
      have hutf : [a1, a2, a3, a4, a5, a6, a7, a8].map utf8LossyByte =
          [a1, a2, a3, a4, a5, a6, a7, a8] := by
        calc [a1, a2, a3, a4, a5, a6, a7, a8].map utf8LossyByte
            = [a1, a2, a3, a4, a5, a6, a7, a8].map id :=
              List.map_congr_left (fun c hc => by
                unfold utf8LossyByte
                rw [if_pos (hfn_chars c hc).1]
                rfl)
          _ = _ := List.map_id _
      rw [hutf]
      exact trimChars_eq_self _ (fun c hc => (hfn_chars c hc).2)
    · -- filetype round-trips: masking bit 7 is the identity on ASCII
      show [b1, b2, b3].map (fun b => b &&& 0x7F) = _
      calc [b1, b2, b3].map (fun b => b &&& 0x7F) = [b1, b2, b3].map id :=
            List.map_congr_left (fun c hc => land_7F_eq c (hft_chars c hc))
        _ = _ := List.map_id _
    · -- allocation round-trips through the 8 two-byte slots
      show ((lePairs (((alloc.flatMap fun al => [al % 256, al >>> 8 % 256]) ++
          List.replicate (16 - 2 * alloc.length) 0).take 16)).filter
          (fun b => b ≠ 0)) = _
      rw [htail16, hpad2, lePairs_leBytes_append, List.filter_append, hmapid,
        List.filter_eq_self.mpr (fun a ha => by simp [(hal a ha).1]),
        List.filter_replicate]
      simp
    · -- readonly comes back false: bit 7 of `b1 % 128` is clear
      show (b1 &&& 0x80 != 0) = false
      rw [land_80_eq_zero b1 (hft_chars b1 (by simp))]
      rfl
    · -- system comes back false likewise
      show (b2 &&& 0x80 != 0) = false
      rw [land_80_eq_zero b2 (hft_chars b2 (by simp))]
      rfl

theorem claim_C4_amended_roundtrip_witness :
    ∃ bytes, roundtripOkEntry.encodeBytes = some bytes ∧ bytes.length = 32 ∧
      decodeDirEntry bytes roundtripOkEntry.directory_entry_idx =
        some roundtripOkEntry :=
  claim_C4_amended_roundtrip roundtripOkEntry (by decide) (by decide) (by decide)
    (by decide) (by decide) (by decide) (by decide) (by decide) (by decide)
    (by decide)

/-- C5: in `copy_in`'s entry-building loop, run as `copy_in` runs it
(iteration count `ceil(blocks_needed/8)`, `blocks_needed` chunks of the
source, `file_len` rounded up to whole 128-byte records) with enough
free blocks, every directory entry whose allocation list is fully
populated (8 slots) carries the record-count sentinel `0x80`, and an
entry with a partially filled allocation list can only be the final
one, its record count equal to its extent's byte count divided by 128
rounded up — equivalently `min 128` of that ceiling — for every
positive source length, including files needing more than two
extents. -/
theorem claim_C5_copy_in_record_counts (file_data : List Nat) (user : Nat)
    (fn ft fe fb : List Nat)
    (hpos : 0 < file_data.length)
    (hfb : (chunksBlocks file_data).length ≤ fb.length) :
    (∀ e ∈ mkEntriesGo user fn ft fe 0
        (((chunksBlocks file_data).length + 7) / 8)
        (chunksBlocks file_data).length fb
        ((file_data.length + 127) / 128 * 128),
      e.allocation.length = 8 → e.record_count = 0x80) ∧
      (∀ e ∈ mkEntriesGo user fn ft fe 0
          (((chunksBlocks file_data).length + 7) / 8)
          (chunksBlocks file_data).length fb
          ((file_data.length + 127) / 128 * 128),
        e.allocation.length ≠ 8 →
          (mkEntriesGo user fn ft fe 0
              (((chunksBlocks file_data).length + 7) / 8)
              (chunksBlocks file_data).length fb
              ((file_data.length + 127) / 128 * 128)).getLast? = some e ∧
            e.record_count = (file_data.length -
              16384 * ((((chunksBlocks file_data).length + 7) / 8) - 1) + 127) / 128 ∧
            e.record_count = min 128 ((file_data.length -
              16384 * ((((chunksBlocks file_data).length + 7) / 8) - 1) + 127) / 128)) := by
  have hb : (chunksBlocks file_data).length =
      (file_data.length + BLOCKSIZE - 1) / BLOCKSIZE := chunksBlocks_length _
  have hbs : BLOCKSIZE = 2048 := rfl
  rw [hbs] at hb
  obtain ⟨k, hk⟩ : ∃ k, ((chunksBlocks file_data).length + 7) / 8 = k + 1 :=
    ⟨((chunksBlocks file_data).length + 7) / 8 - 1, by omega⟩
  rw [hk]
  have hlo : 8 * k < (chunksBlocks file_data).length := by omega
  have hhi : (chunksBlocks file_data).length ≤ 8 * (k + 1) := by omega
  have hmain := mkEntriesGo_record_counts user fn ft fe k 0
    (chunksBlocks file_data).length ((file_data.length + 127) / 128 * 128) fb
    hlo hhi hfb
  refine ⟨hmain.1, ?_⟩
  intro e he h8
  obtain ⟨hlast, hrc, hal⟩ := hmain.2 e he h8
  have hrc2 : e.record_count = (file_data.length - 16384 * k + 127) / 128 := by
    rw [hrc]
    omega
  simp only [Nat.add_sub_cancel]
  refine ⟨hlast, hrc2, ?_⟩
  rw [hrc2, Nat.min_eq_right (by omega)]

theorem claim_C5_copy_in_record_counts_witness :
    (∀ e ∈ mkEntriesGo 0 [65] [66] (List.range 128) 0
        (((chunksBlocks (List.replicate 40000 0)).length + 7) / 8)
        (chunksBlocks (List.replicate 40000 0)).length
        ((List.range 20).map (fun i => i + 2))
        (((List.replicate 40000 0 : List Nat).length + 127) / 128 * 128),
      e.allocation.length = 8 → e.record_count = 0x80) ∧
      (∀ e ∈ mkEntriesGo 0 [65] [66] (List.range 128) 0
          (((chunksBlocks (List.replicate 40000 0)).length + 7) / 8)
          (chunksBlocks (List.replicate 40000 0)).length
          ((List.range 20).map (fun i => i + 2))
          (((List.replicate 40000 0 : List Nat).length + 127) / 128 * 128),
        e.allocation.length ≠ 8 →
          (mkEntriesGo 0 [65] [66] (List.range 128) 0
              (((chunksBlocks (List.replicate 40000 0)).length + 7) / 8)
              (chunksBlocks (List.replicate 40000 0)).length
              ((List.range 20).map (fun i => i + 2))
              (((List.replicate 40000 0 : List Nat).length + 127) / 128 * 128)).getLast? =
            some e ∧
            e.record_count = ((List.replicate 40000 0 : List Nat).length -
              16384 * ((((chunksBlocks (List.replicate 40000 0)).length + 7) / 8) - 1) +
                127) / 128 ∧
            e.record_count = min 128 (((List.replicate 40000 0 : List Nat).length -
              16384 * ((((chunksBlocks (List.replicate 40000 0)).length + 7) / 8) - 1) +
                127) / 128)) :=
  claim_C5_copy_in_record_counts (List.replicate 40000 0) 0 [65] [66]
    (List.range 128) ((List.range 20).map (fun i => i + 2))
    (by rw [List.length_replicate]; omega)
    (by rw [chunksBlocks_length, List.length_replicate, List.length_map,
         List.length_range]; norm_num [BLOCKSIZE])

/-- C6: `copy_out` reads the file's nonzero blocks in extent order,
`BLOCKSIZE` bytes per block except at the file's final block, where
only the remaining `total_size - written` bytes are read
(`specCopyOutReads` is that schedule verbatim); consequently the
output never extends past the logical end of file, its length is
`min total (BLOCKSIZE * nonzero-block-count)`, and whenever the
catalog provides enough nonzero blocks the output length equals the
file's size exactly. -/
theorem claim_C6_copy_out_reads (disk : Nat → Nat) (f : FileEntry) :
    copy_out_bytes disk f =
      specCopyOutReads disk f.file_size 0 (nonzeroBlocks f) ∧
      (copy_out_bytes disk f).length =
        min f.file_size (BLOCKSIZE * (nonzeroBlocks f).length) ∧
      (copy_out_bytes disk f).length ≤ f.file_size ∧
      (f.file_size ≤ BLOCKSIZE * (nonzeroBlocks f).length →
        (copy_out_bytes disk f).length = f.file_size) := by
  have h1 : copy_out_bytes disk f =
      copyOutFlat disk f.file_size 0 (nonzeroBlocks f) := by
    unfold copy_out_bytes nonzeroBlocks
    rw [copyOutGo_flat]
  have h2 : (copy_out_bytes disk f).length =
      min f.file_size (BLOCKSIZE * (nonzeroBlocks f).length) := by
    rw [h1, copyOutFlat_length, Nat.sub_zero]
  refine ⟨?_, h2, ?_, ?_⟩
  · rw [h1, copyOutFlat_spec]
  · rw [h2]
    exact Nat.min_le_left _ _
  · intro h
    rw [h2]
    exact Nat.min_eq_left h

theorem claim_C6_copy_out_reads_witness :
    smallOutFile.file_size ≤ BLOCKSIZE * (nonzeroBlocks smallOutFile).length ∧
      (copy_out_bytes (fun i => i % 256) smallOutFile).length =
        smallOutFile.file_size :=
  ⟨by decide,
    (claim_C6_copy_out_reads (fun i => i % 256) smallOutFile).2.2.2 (by decide)⟩

/-- C9 amended: `split_cpm_file_name` rejects, before any image
operation, every name that does not split into exactly three parts on
`:` and `.`, and every name whose (uppercased) filename exceeds 8 or
filetype exceeds 3 characters; an accepted name always satisfies
those bounds and has a user value at most 255 — but a non-numeric (or
overflowing) user part is not rejected: it silently parses as user 0
(`unwrap_or(0)`). -/
theorem claim_C9_amended_parse (s : List Nat) :
    ((splitParts s).length ≠ 3 →
        split_cpm_file_name s = .error "Invalid format, expected user:filename.filetype") ∧
      (∀ u fn ft, split_cpm_file_name s = .ok (u, fn, ft) →
        fn.length ≤ 8 ∧ ft.length ≤ 3 ∧ u ≤ 255 ∧
          fn = toUpperChars ((splitParts s).getD 1 []) ∧
          ft = toUpperChars ((splitParts s).getD 2 []) ∧
          u = (parseU8 ((splitParts s).getD 0 [])).getD 0) := by
  constructor
  · intro h3
    unfold split_cpm_file_name
    rw [if_pos h3]
  · intro u fn ft h
    simp only [split_cpm_file_name] at h
    split at h
    · cases h
    · split at h
      · cases h
      · next hcond =>
        cases h
        simp only [Bool.or_eq_true, decide_eq_true_eq, not_or] at hcond
        obtain ⟨h8, h3t⟩ := hcond
        refine ⟨by omega, by omega, ?_, rfl, rfl, rfl⟩
        rcases hp : parseU8 ((splitParts s).getD 0 []) with - | w
        · simp [hp]
        · simpa [hp] using parseU8_le _ _ hp

theorem claim_C9_amended_parse_witness :
    ([65] : List Nat).length ≤ 8 ∧ ([66] : List Nat).length ≤ 3 ∧ (0 : Nat) ≤ 255 ∧
      ([65] : List Nat) = toUpperChars ((splitParts cpmNameA).getD 1 []) ∧
      ([66] : List Nat) = toUpperChars ((splitParts cpmNameA).getD 2 []) ∧
      (0 : Nat) = (parseU8 ((splitParts cpmNameA).getD 0 [])).getD 0 :=
  (claim_C9_amended_parse cpmNameA).2 0 [65] [66] (by rfl)

/-- C9 counterexample: `ab:X.Y` has a non-numeric user part
(`parse::<u8>` fails), yet `split_cpm_file_name` accepts it and
silently substitutes user 0 instead of returning a parse error. -/
theorem claim_C9_counterexample :
    parseU8 [0x61, 0x62] = none ∧
      split_cpm_file_name cpmNameBadUser = .ok (0, [88], [89]) := by
  exact ⟨rfl, rfl⟩

/-- C7: `merge_extents` is a pure function of the multiset of catalog
entries — its result does not depend on the scan order — provided
directory-slot indices are distinct and extents of one (user, filename,
filetype) key carry distinct global sequence numbers; moreover the file
list is ordered by the minimum slot index of each group, each file's
extents are sorted ascending by global sequence number
(32*extent_high + extent_low), carry exactly the file's key, attain the
recorded minimum slot index, and readonly/system are the OR across the
group. -/
theorem claim_C7_merge_deterministic (l₁ l₂ : List DirEntry)
    (hperm : l₁.Perm l₂)
    (hidx : l₁.Pairwise (fun a b => a.directory_entry_idx ≠ b.directory_entry_idx))
    (hen : l₁.Pairwise (fun a b => dirKey a = dirKey b → a.entry_number ≠ b.entry_number)) :
    merge_extents l₁ = merge_extents l₂ ∧
      (merge_extents l₁).Sorted leFirstIdx ∧
      ∀ f ∈ merge_extents l₁,
        f.extents.Sorted leEntryNumber ∧
          (∀ e ∈ f.extents, dirKey e = fileKey f) ∧
          (∀ e ∈ f.extents, f.first_directory_entry_idx ≤ e.directory_entry_idx) ∧
          (∃ e ∈ f.extents, f.first_directory_entry_idx = e.directory_entry_idx) ∧
          f.readonly = f.extents.any DirEntry.readonly ∧
          f.system = f.extents.any DirEntry.system := by
  refine ⟨merge_extents_eq_of_perm l₁ l₂ hperm hidx hen, merge_extents_sorted l₁, ?_⟩
  intro f hf
  exact merge_file_props l₁ f hf

theorem claim_C7_merge_deterministic_witness :
    mergeExampleIn1.Perm mergeExampleIn2 ∧
      merge_extents mergeExampleIn1 = merge_extents mergeExampleIn2 ∧
      (merge_extents mergeExampleIn1).map
        (fun f => f.extents.map DirEntry.entry_number) = [[1, 2, 3]] :=
  ⟨by decide,
    (claim_C7_merge_deterministic mergeExampleIn1 mergeExampleIn2
      (by decide) (by decide) (by decide)).1,
    by decide⟩

/-- C10: `merge_extents` partitions its input exactly: the extents of
the output files are a permutation of the input entries (no entry
dropped, duplicated or invented, each unchanged), every extent sits in
the file whose (user, filename, filetype) key matches it, distinct
output files have distinct keys (so each entry lands in exactly one
file), and extent counts sum to the input length. -/
theorem claim_C10_merge_partition (l : List DirEntry) :
    ((merge_extents l).flatMap FileEntry.extents).Perm l ∧
      (∀ f ∈ merge_extents l, ∀ e ∈ f.extents, dirKey e = fileKey f) ∧
      (merge_extents l).Pairwise (fun f g => fileKey f ≠ fileKey g) ∧
      ((merge_extents l).map (fun f => f.extents.length)).sum = l.length := by
  have hflat : ((merge_extents l).flatMap FileEntry.extents).Perm l := by
    have h1 := (merge_extents_perm_canonical l).flatMap_right FileEntry.extents
    rw [List.flatMap_map] at h1
    have h2 : ((firstKeys l).flatMap
        (fun k => FileEntry.extents (sortExtents (fileOf l k)))).Perm
        ((firstKeys l).flatMap (fun k => groupFor l k)) := by
      refine List.Perm.flatMap_left _ ?_
      intro k hk
      exact List.perm_insertionSort leEntryNumber (groupFor l k)
    exact (h1.trans h2).trans (flatMap_groupFor_perm l)
  refine ⟨hflat, ?_, ?_, ?_⟩
  · intro f hf e he
    exact (merge_file_props l f hf).2.1 e he
  · have hmap := (merge_extents_perm_canonical l).map fileKey
    rw [List.map_map] at hmap
    have hid : List.map (fileKey ∘ fun k => sortExtents (fileOf l k)) (firstKeys l) =
        firstKeys l := by
      have hpt : ∀ k ∈ firstKeys l,
          (fileKey ∘ fun k => sortExtents (fileOf l k)) k = id k := by
        intro k hk
        show fileKey (sortExtents (fileOf l k)) = k
        rw [fileKey_sortExtents, fileKey_fileOf]
      rw [List.map_congr_left hpt, List.map_id]
    rw [hid] at hmap
    exact List.pairwise_map.mp (hmap.nodup_iff.mpr (firstKeys_nodup l))
  · have hlen := hflat.length_eq
    rw [List.flatMap_def, List.length_flatten, List.map_map] at hlen
    exact hlen

end Cpm
